import Mathlib

/-!
# FloorTile: a shallow embedding of `main.go`

The Go program keeps two globals, `floor` (a `[ROWS][COLUMNS]tile` array) and
`tileCounts` (a `map[tile]int32`, initially nil), and fills the floor in one
row-major scan (`makePattern`).  The embedding below follows the source function by
function:

* array reads and writes take `Int` indices and fail (`none` / `Outcome.panic`) exactly
  where Go raises an index-out-of-range panic;
* `int32` counters wrap modulo `2^32`;
* `rand.Intn` is an oracle: the `i`-th call returns `rnd i % n`, which ranges over all of
  `[0, n)` as `rnd` varies, and panics for `n = 0`;
* Go `int` coordinates are unbounded `Int`: the only arithmetic on them is `± 1`, and a
  coordinate at which 64-bit wrap-around could occur is outside the floor both before and
  after wrapping, so every function below returns the same result as with wrap-around.
-/

namespace FloorTile

/-- Tile kinds: `type tile int` with the constants `Z` (unlaid), `A`, `B`, `C`, `D`. -/
inductive tile where
  | Z
  | A
  | B
  | C
  | D
  deriving DecidableEq, Repr

open tile

/-- Number of rows of the floor (`const ROWS = 15`). -/
def ROWS : Nat := 15

/-- Number of columns of the floor (`const COLUMNS = 60`). -/
def COLUMNS : Nat := 60

/-- The global `var floor [ROWS][COLUMNS]tile`. -/
abbrev Floor := Fin ROWS → Fin COLUMNS → tile

/-- A non-nil `map[tile]int32`: each key is absent (`none`) or bound to a value. -/
abbrev Counts := tile → Option Int

/-- The mutable globals of the program, and the number of `rand.Intn` calls made so far. -/
structure World where
  floor : Floor
  tileCounts : Option Counts
  drawn : Nat

/-- Result of running a statement: it returned normally, or it panicked; either way the
globals are as the statement left them. -/
inductive Outcome where
  | ok (w : World)
  | panic (w : World)

/-- Sequencing: a panic aborts what follows. -/
def Outcome.andThen (o : Outcome) (f : World → Outcome) : Outcome :=
  match o with
  | .ok w => f w
  | .panic w => .panic w

/-- The globals carried by an outcome. -/
def Outcome.world : Outcome → World
  | .ok w => w
  | .panic w => w

/-- Whether the outcome is a normal return. -/
def Outcome.isOk : Outcome → Bool
  | .ok _ => true
  | .panic _ => false

/-- The zero value of `floor`: every cell is `Z`. -/
def emptyFloor : Floor := fun _ _ => Z

/-- The globals at program start: zero floor, nil map, no draw made. -/
def initialWorld : World := { floor := emptyFloor, tileCounts := none, drawn := 0 }

/-- Value of `int32(x)` for an integer `x`: two's-complement wrap-around. -/
def wrap32 (x : Int) : Int := (x + 2147483648) % 4294967296 - 2147483648

/-- Source `isWithinFloor`. -/
def isWithinFloor (row column : Int) : Bool :=
  decide (row ≥ 0) && decide (row < (ROWS : Int)) && decide (column ≥ 0)
    && decide (column < (COLUMNS : Int))

/-- The read `floor[row][column]`: `none` is the index-out-of-range panic. -/
def index (fl : Floor) (row column : Int) : Option tile :=
  if h : 0 ≤ row ∧ row < (ROWS : Int) ∧ 0 ≤ column ∧ column < (COLUMNS : Int) then
    some (fl ⟨row.toNat, by omega⟩ ⟨column.toNat, by omega⟩)
  else none

/-- The array value after a successful write `floor[row][column] = t`. -/
def put (fl : Floor) (row column : Int) (t : tile) : Floor :=
  fun r c => if ((r : Nat) : Int) = row ∧ ((c : Nat) : Int) = column then t else fl r c

/-- The write `floor[row][column] = t` on the array value: `none` is the
index-out-of-range panic (nothing is written). -/
def store (fl : Floor) (row column : Int) (t : tile) : Option Floor :=
  if 0 ≤ row ∧ row < (ROWS : Int) ∧ 0 ≤ column ∧ column < (COLUMNS : Int) then
    some (put fl row column t)
  else none

/-- Source `isTileLaid`: reads the floor without a bounds check. -/
def isTileLaid (fl : Floor) (row column : Int) : Option Bool :=
  (index fl row column).map (fun t => decide (t ≠ Z))

/-- Source `canLayTile`: `isWithinFloor(row, column) && !isTileLaid(row, column)`; the
right operand is evaluated only when the left one is true. -/
def canLayTile (fl : Floor) (row column : Int) : Option Bool :=
  if isWithinFloor row column then (isTileLaid fl row column).map (fun b => !b)
  else some false

/-- Go's short-circuit `&&` on operands whose evaluation may panic. -/
def andAlso (a b : Option Bool) : Option Bool :=
  match a with
  | none => none
  | some false => some false
  | some true => b

/-- Source `getCandidateTiles`. -/
def getCandidateTiles (fl : Floor) (row column : Int) : Option (List tile) := do
  let candidates : List tile := []
  let c1 ← canLayTile fl row column
  let candidates := if c1 then candidates ++ [A] else candidates
  let c2 ← andAlso (canLayTile fl row column) (canLayTile fl row (column + 1))
  let candidates := if c2 then candidates ++ [B] else candidates
  let c3 ← andAlso (canLayTile fl row column) (canLayTile fl (row + 1) column)
  let candidates := if c3 then candidates ++ [C] else candidates
  let c4 ← andAlso (andAlso (andAlso (canLayTile fl row column) (canLayTile fl (row + 1) column))
    (canLayTile fl row (column + 1))) (canLayTile fl (row + 1) (column + 1))
  let candidates := if c4 then candidates ++ [D] else candidates
  return candidates

/-- Source `getLeftTile`. -/
def getLeftTile (fl : Floor) (row column : Int) : Option tile :=
  if !isWithinFloor row (column - 1) then some Z
  else index fl row (column - 1)

/-- Source `getAboveTile`. -/
def getAboveTile (fl : Floor) (row column : Int) : Option tile :=
  if !isWithinFloor (row - 1) column then some Z
  else index fl (row - 1) column

/-- Source `getProblematicTiles`: the loop over `candidateTiles`; in each iteration the
left operand of `||` is evaluated first and the right one only when the left is false. -/
def getProblematicTiles (fl : Floor) (candidateTiles : List tile) (row column : Int) :
    Option (List tile) :=
  candidateTiles.foldlM (fun problematicTiles candidateTile => do
    let l ← getLeftTile fl row column
    if candidateTile = l then
      return problematicTiles ++ [candidateTile]
    else
      let a ← getAboveTile fl row column
      if candidateTile = a then
        return problematicTiles ++ [candidateTile]
      else
        return problematicTiles) []

/-- Source `removeProblematicTiles`: a candidate is kept unless the inner loop finds it in
`problematicTiles`. -/
def removeProblematicTiles (candidateTiles problematicTiles : List tile) : List tile :=
  candidateTiles.foldl (fun filteredTiles candidateTile =>
    if problematicTiles.any (fun problematicTile => decide (problematicTile = candidateTile))
    then filteredTiles
    else filteredTiles ++ [candidateTile]) []

/-- Reading `tileCounts[t]`: a nil map or a missing key reads as zero. -/
def countOf (tc : Option Counts) (t : tile) : Int :=
  match tc with
  | none => 0
  | some m => (m t).getD 0

/-- The deferred function of `layTile`: allocate the map if it is nil, then
`tileCounts[t]++` in `int32` arithmetic. -/
def bump (tc : Option Counts) (t : tile) : Option Counts :=
  let m : Counts := match tc with
    | none => fun _ => none
    | some m => m
  some (fun k => if k = t then some (wrap32 ((m t).getD 0 + 1)) else m k)

/-- The statement `floor[row][column] = t` on the globals. -/
def assign (row column : Int) (t : tile) (w : World) : Outcome :=
  match store w.floor row column t with
  | some fl => .ok { w with floor := fl }
  | none => .panic w

/-- The `switch` of `layTile`, without the deferred function. -/
def layTileSwitch (row column : Int) (t : tile) (w : World) : Outcome :=
  match t with
  | A => assign row column t w
  | B => (assign row column t w).andThen (assign row (column + 1) t)
  | C => (assign row column t w).andThen (assign (row + 1) column t)
  | D => (((assign row column t w).andThen (assign (row + 1) column t)).andThen
      (assign row (column + 1) t)).andThen (assign (row + 1) (column + 1) t)
  | Z => .ok w

/-- Source `layTile`: the deferred function runs when the body returns and also when it
panics. -/
def layTile (row column : Int) (t : tile) (w : World) : Outcome :=
  match layTileSwitch row column t w with
  | .ok w1 => .ok { w1 with tileCounts := bump w1.tileCounts t }
  | .panic w1 => .panic { w1 with tileCounts := bump w1.tileCounts t }

/-- The call `rand.Intn(n)`: panics for `n = 0`, otherwise returns a value below `n` and
advances the generator. -/
def Intn (rnd : Nat → Nat) (n : Nat) (w : World) : Option (Nat × World) :=
  if n = 0 then none else some (rnd w.drawn % n, { w with drawn := w.drawn + 1 })

/-- Lines 151-156 of `makePattern`: the list that line 158 indexes, computed from the
candidates of line 146. -/
def survivors (fl : Floor) (candidateTiles : List tile) (row column : Int) :
    Option (List tile) := do
  let problematicTiles ← getProblematicTiles fl candidateTiles row column
  if candidateTiles.length > problematicTiles.length then
    return removeProblematicTiles candidateTiles problematicTiles
  else
    return candidateTiles

/-- What lines 146-158 decide before `layTile` is called: the iteration is skipped
(`continue`), or the argument `candidateTiles[rand.Intn(len(candidateTiles))]` has been
evaluated to `t` (leaving the globals `w1`), or its evaluation panicked. -/
inductive Choice where
  | skip
  | place (t : tile) (w1 : World)
  | fail (w1 : World)

/-- Lines 146-158 of `makePattern` up to the evaluation of the argument of `layTile`. -/
def chooseTile (rnd : Nat → Nat) (currentRow currentColumn : Int) (w : World) : Choice :=
  match getCandidateTiles w.floor currentRow currentColumn with
  | none => .fail w
  | some candidateTiles =>
    if candidateTiles.length = 0 then .skip
    else
      match survivors w.floor candidateTiles currentRow currentColumn with
      | none => .fail w
      | some candidateTiles =>
        match Intn rnd candidateTiles.length w with
        | none => .fail w
        | some (i, w1) =>
          match candidateTiles[i]? with
          | none => .fail w1
          | some t => .place t w1

/-- Body of the inner loop of `makePattern` (lines 146-158). -/
def scanBody (rnd : Nat → Nat) (currentRow currentColumn : Int) (w : World) : Outcome :=
  match chooseTile rnd currentRow currentColumn w with
  | .skip => .ok w
  | .fail w1 => .panic w1
  | .place t w1 => layTile currentRow currentColumn t w1

/-- The inner loop `for currentColumn := 0; currentColumn < COLUMNS; currentColumn++`. -/
def scanRow (rnd : Nat → Nat) (currentRow : Nat) (o : Outcome) : Outcome :=
  (List.range COLUMNS).foldl
    (fun o (currentColumn : Nat) => o.andThen (scanBody rnd currentRow currentColumn)) o

/-- Source `makePattern`: the outer loop over `currentRow`. -/
def makePattern (rnd : Nat → Nat) (w : World) : Outcome :=
  (List.range ROWS).foldl (fun o (currentRow : Nat) => scanRow rnd currentRow o) (.ok w)

/-- The globals after the first `n` iterations of the loop body, in row-major order:
iteration `i` scans the cell `(i / COLUMNS, i % COLUMNS)`. -/
def runSteps (rnd : Nat → Nat) (w : World) : Nat → Outcome
  | 0 => .ok w
  | n + 1 => (runSteps rnd w n).andThen
      (scanBody rnd ((n / COLUMNS : Nat) : Int) ((n % COLUMNS : Nat) : Int))

/-- The cells that `layTile` assigns for kind `t` at origin `(row, column)`, in the order
of the assignments. -/
def footprint (t : tile) (row column : Int) : List (Int × Int) :=
  match t with
  | A => [(row, column)]
  | B => [(row, column), (row, column + 1)]
  | C => [(row, column), (row + 1, column)]
  | D => [(row, column), (row + 1, column), (row, column + 1), (row + 1, column + 1)]
  | Z => []

/-- The cell `(row, column)` exists and is unlaid. -/
def isFree (fl : Floor) (row column : Int) : Bool :=
  decide (index fl row column = some Z)

/-- The array value after assigning `t` to each of `cells` in turn. -/
def paint (fl : Floor) (t : tile) (cells : List (Int × Int)) : Floor :=
  cells.foldl (fun f p => put f p.1 p.2 t) fl

/-- Number of laid cells of a floor. -/
def laidCells (fl : Floor) : Nat :=
  (Finset.univ.filter (fun p : Fin ROWS × Fin COLUMNS => fl p.1 p.2 ≠ Z)).card

/-- Number of cells covered by the placements counted in `tileCounts`: each kind weighted
by the size of its footprint. -/
def coveredByCounts (tc : Option Counts) : Int :=
  countOf tc A + 2 * countOf tc B + 2 * countOf tc C + 4 * countOf tc D

/-- Every cell that `layTile` would assign for kind `t` at `(row, column)` exists and is
unlaid. -/
def fits (fl : Floor) (t : tile) (row column : Int) : Bool :=
  (footprint t row column).all (fun p => isFree fl p.1 p.2)

/-- The test of the loop body of `getProblematicTiles`, for known neighbour kinds. -/
def repeats (l a : tile) (k : tile) : Bool :=
  decide (k = l) || decide (k = a)

/-- The assignments `floor[p.1][p.2] = t` for `p` in `cells`, executed in order. -/
def assignAll (t : tile) (cells : List (Int × Int)) (o : Outcome) : Outcome :=
  cells.foldl (fun o p => o.andThen (assign p.1 p.2 t)) o

/-- Globals in which the cell `(0, 0)` is already laid with `B`. -/
def originLaid : World :=
  { floor := put emptyFloor 0 0 B, tileCounts := none, drawn := 0 }

/-- Globals in which every cell of the floor is laid with `A`. -/
def allLaid : World :=
  { floor := fun _ _ => A, tileCounts := none, drawn := 0 }

/-- Whether iteration `i` of the loop body, in a run started from `w`, calls `layTile`. -/
def placedAt (rnd : Nat → Nat) (w : World) (i : Nat) : Bool :=
  match runSteps rnd w i with
  | .ok wi =>
    match chooseTile rnd ((i / COLUMNS : Nat) : Int) ((i % COLUMNS : Nat) : Int) wi with
    | .place _ _ => true
    | _ => false
  | .panic _ => false

/-- Number of `layTile` calls made by the first `n` iterations of the loop body. -/
def placements (rnd : Nat → Nat) (w : World) (n : Nat) : Nat :=
  ((List.range n).filter (placedAt rnd w)).length

/-- The scan front before iteration `n` (which scans row `n / COLUMNS`, column
`n % COLUMNS`): cells scanned by earlier iterations are laid; rows from two below the
current row on are unlaid; and in the next row a cell at or beyond the current column can
be laid only at the current column, and then the current cell is laid too. -/
def ScanFront (n : Nat) (fl : Floor) : Prop :=
  (∀ (r : Fin ROWS) (c : Fin COLUMNS), (r : Nat) * COLUMNS + (c : Nat) < n → fl r c ≠ Z) ∧
  (∀ (r : Fin ROWS) (c : Fin COLUMNS), n / COLUMNS + 2 ≤ (r : Nat) → fl r c = Z) ∧
  (∀ (r : Fin ROWS) (c : Fin COLUMNS), (r : Nat) = n / COLUMNS + 1 →
    n % COLUMNS ≤ (c : Nat) → fl r c ≠ Z →
    (c : Nat) = n % COLUMNS ∧ ∀ r0 : Fin ROWS, (r0 : Nat) = n / COLUMNS → fl r0 c ≠ Z)

/-- Invariant linking `tileCounts` to the floor: the counts account for exactly the laid
cells, no count is negative, and the map holds no entry for `Z`. -/
def CountsMatch (w : World) : Prop :=
  coveredByCounts w.tileCounts = (laidCells w.floor : Int) ∧
  (∀ k, 0 ≤ countOf w.tileCounts k) ∧
  (∀ m, w.tileCounts = some m → m Z = none)

/-! ## The program for other floor sizes

The scenario of a one-row floor concerns the same source text with other values of the
constants `ROWS` and `COLUMNS`.  The definitions of `Sized` repeat the embedding above
with the two constants as parameters `R` and `K`; for `R = ROWS` and `K = COLUMNS` they
are the definitions above (`Sized.makePattern_eq` and the lemmas before it). -/

namespace Sized

/-- The global `floor` when `ROWS = R` and `COLUMNS = K`. -/
abbrev Floor (R K : Nat) := Fin R → Fin K → tile

/-- The mutable globals, and the number of `rand.Intn` calls made so far. -/
structure World (R K : Nat) where
  floor : Floor R K
  tileCounts : Option Counts
  drawn : Nat

/-- Result of running a statement: normal return or panic, with the globals as left. -/
inductive Outcome (R K : Nat) where
  | ok (w : World R K)
  | panic (w : World R K)

/-- Sequencing: a panic aborts what follows. -/
def Outcome.andThen {R K : Nat} (o : Outcome R K) (f : World R K → Outcome R K) :
    Outcome R K :=
  match o with
  | .ok w => f w
  | .panic w => .panic w

/-- The zero value of `floor`. -/
def emptyFloor (R K : Nat) : Floor R K := fun _ _ => Z

/-- The globals at program start. -/
def initialWorld (R K : Nat) : World R K :=
  { floor := emptyFloor R K, tileCounts := none, drawn := 0 }

/-- Source `isWithinFloor`. -/
def isWithinFloor (R K : Nat) (row column : Int) : Bool :=
  decide (row ≥ 0) && decide (row < (R : Int)) && decide (column ≥ 0)
    && decide (column < (K : Int))

/-- The read `floor[row][column]`: `none` is the index-out-of-range panic. -/
def index {R K : Nat} (fl : Floor R K) (row column : Int) : Option tile :=
  if h : 0 ≤ row ∧ row < (R : Int) ∧ 0 ≤ column ∧ column < (K : Int) then
    some (fl ⟨row.toNat, by omega⟩ ⟨column.toNat, by omega⟩)
  else none

/-- The array value after a successful write `floor[row][column] = t`. -/
def put {R K : Nat} (fl : Floor R K) (row column : Int) (t : tile) : Floor R K :=
  fun r c => if ((r : Nat) : Int) = row ∧ ((c : Nat) : Int) = column then t else fl r c

/-- The write `floor[row][column] = t`: `none` is the index-out-of-range panic. -/
def store {R K : Nat} (fl : Floor R K) (row column : Int) (t : tile) : Option (Floor R K) :=
  if 0 ≤ row ∧ row < (R : Int) ∧ 0 ≤ column ∧ column < (K : Int) then
    some (put fl row column t)
  else none

/-- Source `isTileLaid`. -/
def isTileLaid {R K : Nat} (fl : Floor R K) (row column : Int) : Option Bool :=
  (index fl row column).map (fun t => decide (t ≠ Z))

/-- Source `canLayTile`. -/
def canLayTile {R K : Nat} (fl : Floor R K) (row column : Int) : Option Bool :=
  if isWithinFloor R K row column then (isTileLaid fl row column).map (fun b => !b)
  else some false

/-- Source `getCandidateTiles`. -/
def getCandidateTiles {R K : Nat} (fl : Floor R K) (row column : Int) :
    Option (List tile) := do
  let candidates : List tile := []
  let c1 ← canLayTile fl row column
  let candidates := if c1 then candidates ++ [A] else candidates
  let c2 ← andAlso (canLayTile fl row column) (canLayTile fl row (column + 1))
  let candidates := if c2 then candidates ++ [B] else candidates
  let c3 ← andAlso (canLayTile fl row column) (canLayTile fl (row + 1) column)
  let candidates := if c3 then candidates ++ [C] else candidates
  let c4 ← andAlso (andAlso (andAlso (canLayTile fl row column) (canLayTile fl (row + 1) column))
    (canLayTile fl row (column + 1))) (canLayTile fl (row + 1) (column + 1))
  let candidates := if c4 then candidates ++ [D] else candidates
  return candidates

/-- Source `getLeftTile`. -/
def getLeftTile {R K : Nat} (fl : Floor R K) (row column : Int) : Option tile :=
  if !isWithinFloor R K row (column - 1) then some Z
  else index fl row (column - 1)

/-- Source `getAboveTile`. -/
def getAboveTile {R K : Nat} (fl : Floor R K) (row column : Int) : Option tile :=
  if !isWithinFloor R K (row - 1) column then some Z
  else index fl (row - 1) column

/-- Source `getProblematicTiles`. -/
def getProblematicTiles {R K : Nat} (fl : Floor R K) (candidateTiles : List tile)
    (row column : Int) : Option (List tile) :=
  candidateTiles.foldlM (fun problematicTiles candidateTile => do
    let l ← getLeftTile fl row column
    if candidateTile = l then
      return problematicTiles ++ [candidateTile]
    else
      let a ← getAboveTile fl row column
      if candidateTile = a then
        return problematicTiles ++ [candidateTile]
      else
        return problematicTiles) []

/-- The statement `floor[row][column] = t` on the globals. -/
def assign {R K : Nat} (row column : Int) (t : tile) (w : World R K) : Outcome R K :=
  match store w.floor row column t with
  | some fl => .ok { w with floor := fl }
  | none => .panic w

/-- The `switch` of `layTile`, without the deferred function. -/
def layTileSwitch {R K : Nat} (row column : Int) (t : tile) (w : World R K) : Outcome R K :=
  match t with
  | A => assign row column t w
  | B => (assign row column t w).andThen (assign row (column + 1) t)
  | C => (assign row column t w).andThen (assign (row + 1) column t)
  | D => (((assign row column t w).andThen (assign (row + 1) column t)).andThen
      (assign row (column + 1) t)).andThen (assign (row + 1) (column + 1) t)
  | Z => .ok w

/-- Source `layTile`: the deferred function runs on return and on panic. -/
def layTile {R K : Nat} (row column : Int) (t : tile) (w : World R K) : Outcome R K :=
  match layTileSwitch row column t w with
  | .ok w1 => .ok { w1 with tileCounts := bump w1.tileCounts t }
  | .panic w1 => .panic { w1 with tileCounts := bump w1.tileCounts t }

/-- The call `rand.Intn(n)`. -/
def Intn {R K : Nat} (rnd : Nat → Nat) (n : Nat) (w : World R K) : Option (Nat × World R K) :=
  if n = 0 then none else some (rnd w.drawn % n, { w with drawn := w.drawn + 1 })

/-- Lines 151-156 of `makePattern`. -/
def survivors {R K : Nat} (fl : Floor R K) (candidateTiles : List tile) (row column : Int) :
    Option (List tile) := do
  let problematicTiles ← getProblematicTiles fl candidateTiles row column
  if candidateTiles.length > problematicTiles.length then
    return removeProblematicTiles candidateTiles problematicTiles
  else
    return candidateTiles

/-- What lines 146-158 decide before `layTile` is called. -/
inductive Choice (R K : Nat) where
  | skip
  | place (t : tile) (w1 : World R K)
  | fail (w1 : World R K)

/-- Lines 146-158 of `makePattern` up to the evaluation of the argument of `layTile`. -/
def chooseTile {R K : Nat} (rnd : Nat → Nat) (currentRow currentColumn : Int)
    (w : World R K) : Choice R K :=
  match getCandidateTiles w.floor currentRow currentColumn with
  | none => .fail w
  | some candidateTiles =>
    if candidateTiles.length = 0 then .skip
    else
      match survivors w.floor candidateTiles currentRow currentColumn with
      | none => .fail w
      | some candidateTiles =>
        match Intn rnd candidateTiles.length w with
        | none => .fail w
        | some (i, w1) =>
          match candidateTiles[i]? with
          | none => .fail w1
          | some t => .place t w1

/-- Body of the inner loop of `makePattern`. -/
def scanBody {R K : Nat} (rnd : Nat → Nat) (currentRow currentColumn : Int)
    (w : World R K) : Outcome R K :=
  match chooseTile rnd currentRow currentColumn w with
  | .skip => .ok w
  | .fail w1 => .panic w1
  | .place t w1 => layTile currentRow currentColumn t w1

/-- The inner loop over `currentColumn`. -/
def scanRow {R K : Nat} (rnd : Nat → Nat) (currentRow : Nat) (o : Outcome R K) :
    Outcome R K :=
  (List.range K).foldl
    (fun o (currentColumn : Nat) => o.andThen (scanBody rnd currentRow currentColumn)) o

/-- Source `makePattern`: the outer loop over `currentRow`. -/
def makePattern {R K : Nat} (rnd : Nat → Nat) (w : World R K) : Outcome R K :=
  (List.range R).foldl (fun o (currentRow : Nat) => scanRow rnd currentRow o) (.ok w)

/-- The cell `(row, column)` exists and is unlaid. -/
def isFree {R K : Nat} (fl : Floor R K) (row column : Int) : Bool :=
  decide (index fl row column = some Z)

/-- Every cell that `layTile` would assign for kind `t` at `(row, column)` exists and is
unlaid. -/
def fits {R K : Nat} (fl : Floor R K) (t : tile) (row column : Int) : Bool :=
  (footprint t row column).all (fun p => isFree fl p.1 p.2)

/-- The globals of the program of the sections above, from those for `R = ROWS` and
`K = COLUMNS`. -/
def toWorld (w : World ROWS COLUMNS) : FloorTile.World :=
  { floor := w.floor, tileCounts := w.tileCounts, drawn := w.drawn }

/-- The outcome of the program of the sections above, from that for `R = ROWS` and
`K = COLUMNS`. -/
def toOutcome (o : Outcome ROWS COLUMNS) : FloorTile.Outcome :=
  match o with
  | .ok w => .ok (toWorld w)
  | .panic w => .panic (toWorld w)

/-- No cell of the floor holds `C` or `D`, and neither kind has been counted. -/
def NoVertical {R K : Nat} (w : World R K) : Prop :=
  (∀ r c, w.floor r c ≠ C ∧ w.floor r c ≠ D) ∧
  countOf w.tileCounts C = 0 ∧ countOf w.tileCounts D = 0

end Sized

/-! ## Reads and writes -/

theorem isWithinFloor_iff (row column : Int) :
    isWithinFloor row column = true ↔
      0 ≤ row ∧ row < (ROWS : Int) ∧ 0 ≤ column ∧ column < (COLUMNS : Int) := by
  simp [isWithinFloor, and_assoc]

theorem index_of_within (fl : Floor) (row column : Int)
    (h : 0 ≤ row ∧ row < (ROWS : Int) ∧ 0 ≤ column ∧ column < (COLUMNS : Int)) :
    index fl row column = some (fl ⟨row.toNat, by omega⟩ ⟨column.toNat, by omega⟩) := by
  simp [index, h]

theorem index_of_not_within (fl : Floor) (row column : Int)
    (h : ¬ (0 ≤ row ∧ row < (ROWS : Int) ∧ 0 ≤ column ∧ column < (COLUMNS : Int))) :
    index fl row column = none := by
  simp [index, h]

theorem index_cell (fl : Floor) (r : Fin ROWS) (c : Fin COLUMNS) :
    index fl ((r : Nat) : Int) ((c : Nat) : Int) = some (fl r c) := by
  have hr := r.isLt
  have hc := c.isLt
  rw [index_of_within fl _ _ (by omega)]
  simp

theorem isFree_cell (fl : Floor) (r : Fin ROWS) (c : Fin COLUMNS) :
    isFree fl ((r : Nat) : Int) ((c : Nat) : Int) = decide (fl r c = Z) := by
  simp [isFree, index_cell]

theorem isFree_within (fl : Floor) (row column : Int) (h : isFree fl row column = true) :
    0 ≤ row ∧ row < (ROWS : Int) ∧ 0 ≤ column ∧ column < (COLUMNS : Int) := by
  by_contra hn
  simp [isFree, index_of_not_within fl row column hn] at h

theorem canLayTile_eq (fl : Floor) (row column : Int) :
    canLayTile fl row column = some (isFree fl row column) := by
  by_cases h : 0 ≤ row ∧ row < (ROWS : Int) ∧ 0 ≤ column ∧ column < (COLUMNS : Int)
  · have hw : isWithinFloor row column = true := (isWithinFloor_iff row column).2 h
    simp [canLayTile, hw, isTileLaid, isFree, index_of_within fl row column h]
  · have hw : isWithinFloor row column = false := by
      rw [← Bool.not_eq_true, isWithinFloor_iff]; exact h
    simp [canLayTile, hw, isFree, index_of_not_within fl row column h]

/-! ## Candidates -/

theorem getCandidateTiles_eq (fl : Floor) (row column : Int) :
    getCandidateTiles fl row column
      = some ([A, B, C, D].filter (fun k => fits fl k row column)) := by
  simp only [getCandidateTiles, canLayTile_eq, fits, footprint, List.filter, List.all_cons,
    List.all_nil, Bool.and_true]
  generalize isFree fl row column = b1
  generalize isFree fl row (column + 1) = b2
  generalize isFree fl (row + 1) column = b3
  generalize isFree fl (row + 1) (column + 1) = b4
  cases b1 <;> cases b2 <;> cases b3 <;> cases b4 <;> rfl

theorem getLeftTile_total (fl : Floor) (row column : Int) :
    ∃ l, getLeftTile fl row column = some l := by
  by_cases h : isWithinFloor row (column - 1) = true
  · have hi := index_of_within fl row (column - 1) ((isWithinFloor_iff _ _).1 h)
    exact ⟨_, by simpa [getLeftTile, h] using hi⟩
  · exact ⟨Z, by simp [getLeftTile, h]⟩

theorem getAboveTile_total (fl : Floor) (row column : Int) :
    ∃ a, getAboveTile fl row column = some a := by
  by_cases h : isWithinFloor (row - 1) column = true
  · have hi := index_of_within fl (row - 1) column ((isWithinFloor_iff _ _).1 h)
    exact ⟨_, by simpa [getAboveTile, h] using hi⟩
  · exact ⟨Z, by simp [getAboveTile, h]⟩

theorem getProblematicTiles_eq (fl : Floor) (cands : List tile) (row column : Int)
    (l a : tile) (hl : getLeftTile fl row column = some l)
    (ha : getAboveTile fl row column = some a) :
    getProblematicTiles fl cands row column = some (cands.filter (repeats l a)) := by
  unfold getProblematicTiles
  suffices h : ∀ acc : List tile,
      cands.foldlM (fun problematicTiles candidateTile => do
        let l ← getLeftTile fl row column
        if candidateTile = l then
          return problematicTiles ++ [candidateTile]
        else
          let a ← getAboveTile fl row column
          if candidateTile = a then
            return problematicTiles ++ [candidateTile]
          else
            return problematicTiles) acc = some (acc ++ cands.filter (repeats l a)) by
    simpa using h []
  simp only [hl, ha, Option.pure_def, Option.bind_eq_bind, Option.some_bind]
  induction cands with
  | nil => intro acc; simp
  | cons k ks ih =>
    intro acc
    rw [List.foldlM_cons]
    by_cases h1 : k = l
    · simp [h1, ih, repeats, List.filter]
    · by_cases h2 : k = a
      · simp [h1, h2, ih, repeats, List.filter]
      · simp [h1, h2, ih, repeats, List.filter]

theorem removeProblematicTiles_eq (cands prob : List tile) :
    removeProblematicTiles cands prob = cands.filter (fun k => decide (k ∉ prob)) := by
  unfold removeProblematicTiles
  suffices h : ∀ acc : List tile,
      cands.foldl (fun filteredTiles candidateTile =>
        if prob.any (fun problematicTile => decide (problematicTile = candidateTile))
        then filteredTiles
        else filteredTiles ++ [candidateTile]) acc
        = acc ++ cands.filter (fun k => decide (k ∉ prob)) by
    simpa using h []
  induction cands with
  | nil => intro acc; simp
  | cons k ks ih =>
    intro acc
    rw [List.foldl_cons, ih]
    by_cases hk : k ∈ prob
    · simp [hk, List.filter]
    · simp [hk, List.filter]

theorem survivors_eq (fl : Floor) (cands : List tile) (row column : Int)
    (l a : tile) (hl : getLeftTile fl row column = some l)
    (ha : getAboveTile fl row column = some a) :
    survivors fl cands row column
      = some (if cands.filter (fun k => !repeats l a k) = [] then cands
              else cands.filter (fun k => !repeats l a k)) := by
  have hrem : removeProblematicTiles cands (cands.filter (repeats l a))
      = cands.filter (fun k => !repeats l a k) := by
    rw [removeProblematicTiles_eq]
    apply List.filter_congr
    intro k hk
    cases hr : repeats l a k <;> simp [List.mem_filter, hk, hr]
  simp only [survivors, getProblematicTiles_eq fl cands row column l a hl ha,
    Option.pure_def, Option.bind_eq_bind, Option.some_bind, hrem]
  by_cases hall : cands.filter (fun k => !repeats l a k) = []
  · have hle : ¬ cands.length > (cands.filter (repeats l a)).length := by
      rw [gt_iff_lt, List.length_filter_lt_length_iff_exists]
      rintro ⟨x, hx, hnx⟩
      rw [List.filter_eq_nil_iff] at hall
      exact hall x hx (by simpa using hnx)
    simp [hall, hle]
  · have hlt : cands.length > (cands.filter (repeats l a)).length := by
      rw [gt_iff_lt, List.length_filter_lt_length_iff_exists]
      rw [List.filter_eq_nil_iff] at hall
      push_neg at hall
      obtain ⟨x, hx, hnx⟩ := hall
      exact ⟨x, hx, by simpa using hnx⟩
    simp [hall, hlt]

theorem survivors_ne_nil (fl : Floor) (cands : List tile) (row column : Int)
    (sv : List tile) (hc : cands ≠ []) (h : survivors fl cands row column = some sv) :
    sv ≠ [] ∧ ∀ k ∈ sv, k ∈ cands := by
  obtain ⟨l, hl⟩ := getLeftTile_total fl row column
  obtain ⟨a, ha⟩ := getAboveTile_total fl row column
  rw [survivors_eq fl cands row column l a hl ha] at h
  injection h with h
  subst h
  by_cases hall : cands.filter (fun k => !repeats l a k) = []
  · simp [hall, hc]
  · simp only [hall, if_false]
    exact ⟨hall, fun k hk => (List.mem_filter.1 hk).1⟩

theorem candidates_eq_nil_iff (fl : Floor) (row column : Int) :
    [A, B, C, D].filter (fun k => fits fl k row column) = [] ↔ isFree fl row column = false := by
  simp only [fits, footprint, List.filter, List.all_cons, List.all_nil, Bool.and_true]
  generalize isFree fl row column = b1
  generalize isFree fl row (column + 1) = b2
  generalize isFree fl (row + 1) column = b3
  generalize isFree fl (row + 1) (column + 1) = b4
  cases b1 <;> cases b2 <;> cases b3 <;> cases b4 <;> simp

/-- The possible results of `chooseTile`: a laid (or non-existent) cell is skipped; at a
free cell a kind is chosen from the non-empty surviving list, one draw is consumed, and
nothing else changes. -/
theorem chooseTile_cases (rnd : Nat → Nat) (row column : Int) (w : World) :
    (isFree w.floor row column = false ∧ chooseTile rnd row column w = .skip) ∨
    (isFree w.floor row column = true ∧
      ∃ sv t, survivors w.floor ([A, B, C, D].filter (fun k => fits w.floor k row column))
          row column = some sv ∧
        sv ≠ [] ∧ sv[rnd w.drawn % sv.length]? = some t ∧
        fits w.floor t row column = true ∧ t ≠ Z ∧
        chooseTile rnd row column w = .place t { w with drawn := w.drawn + 1 }) := by
  cases hf : isFree w.floor row column with
  | false =>
    left
    refine ⟨rfl, ?_⟩
    have hnil := (candidates_eq_nil_iff w.floor row column).2 hf
    simp [chooseTile, getCandidateTiles_eq, hnil]
  | true =>
    right
    refine ⟨rfl, ?_⟩
    have hne : [A, B, C, D].filter (fun k => fits w.floor k row column) ≠ [] := by
      intro hnil
      rw [candidates_eq_nil_iff] at hnil
      rw [hf] at hnil
      exact Bool.noConfusion hnil
    obtain ⟨l, hl⟩ := getLeftTile_total w.floor row column
    obtain ⟨a, ha⟩ := getAboveTile_total w.floor row column
    have hsv := survivors_eq w.floor
      ([A, B, C, D].filter (fun k => fits w.floor k row column)) row column l a hl ha
    obtain ⟨hsne, hsub⟩ := survivors_ne_nil w.floor _ row column _ hne hsv
    generalize hsvdef : (if ([A, B, C, D].filter (fun k => fits w.floor k row column)).filter
        (fun k => !repeats l a k) = []
      then [A, B, C, D].filter (fun k => fits w.floor k row column)
      else ([A, B, C, D].filter (fun k => fits w.floor k row column)).filter
        (fun k => !repeats l a k)) = sv at hsv hsne hsub
    have hpos : 0 < sv.length := List.length_pos.2 hsne
    have hlt : rnd w.drawn % sv.length < sv.length := Nat.mod_lt _ hpos
    have hmem : sv[rnd w.drawn % sv.length] ∈ sv := List.getElem_mem _
    have hcand := hsub _ hmem
    have hfit : fits w.floor sv[rnd w.drawn % sv.length] row column = true :=
      (List.mem_filter.1 hcand).2
    have htz : sv[rnd w.drawn % sv.length] ≠ Z := by
      intro hz
      rw [hz] at hcand
      simp at hcand
    refine ⟨sv, sv[rnd w.drawn % sv.length], hsv, hsne, List.getElem?_eq_getElem hlt, hfit,
      htz, ?_⟩
    have hlen : ([A, B, C, D].filter (fun k => fits w.floor k row column)).length ≠ 0 := by
      intro h0
      exact hne (List.length_eq_zero.1 h0)
    have hsl : sv.length ≠ 0 := by omega
    simp [chooseTile, getCandidateTiles_eq, hlen, hsv, Intn, hsl, List.getElem?_eq_getElem hlt]

/-! ## Laying a tile -/

theorem assign_of_within (row column : Int) (t : tile) (w : World)
    (h : 0 ≤ row ∧ row < (ROWS : Int) ∧ 0 ≤ column ∧ column < (COLUMNS : Int)) :
    assign row column t w = .ok { w with floor := put w.floor row column t } := by
  simp [assign, store, h]

theorem assign_of_not_within (row column : Int) (t : tile) (w : World)
    (h : ¬ (0 ≤ row ∧ row < (ROWS : Int) ∧ 0 ≤ column ∧ column < (COLUMNS : Int))) :
    assign row column t w = .panic w := by
  simp [assign, store, h]

theorem layTileSwitch_of_within (row column : Int) (t : tile) (w : World)
    (h : ∀ p ∈ footprint t row column,
      0 ≤ p.1 ∧ p.1 < (ROWS : Int) ∧ 0 ≤ p.2 ∧ p.2 < (COLUMNS : Int)) :
    layTileSwitch row column t w
      = .ok { w with floor := paint w.floor t (footprint t row column) } := by
  cases t with
  | Z => simp [layTileSwitch, footprint, paint]
  | A =>
    have h1 := h (row, column) (by simp [footprint])
    simp [layTileSwitch, footprint, paint, assign_of_within _ _ _ _ h1]
  | B =>
    have h1 := h (row, column) (by simp [footprint])
    have h2 := h (row, column + 1) (by simp [footprint])
    simp [layTileSwitch, footprint, paint, Outcome.andThen, assign_of_within _ _ _ _ h1,
      assign_of_within _ _ _ _ h2]
  | C =>
    have h1 := h (row, column) (by simp [footprint])
    have h2 := h (row + 1, column) (by simp [footprint])
    simp [layTileSwitch, footprint, paint, Outcome.andThen, assign_of_within _ _ _ _ h1,
      assign_of_within _ _ _ _ h2]
  | D =>
    have h1 := h (row, column) (by simp [footprint])
    have h2 := h (row + 1, column) (by simp [footprint])
    have h3 := h (row, column + 1) (by simp [footprint])
    have h4 := h (row + 1, column + 1) (by simp [footprint])
    simp [layTileSwitch, footprint, paint, Outcome.andThen, assign_of_within _ _ _ _ h1,
      assign_of_within _ _ _ _ h2, assign_of_within _ _ _ _ h3, assign_of_within _ _ _ _ h4]

theorem layTile_of_within (row column : Int) (t : tile) (w : World)
    (h : ∀ p ∈ footprint t row column,
      0 ≤ p.1 ∧ p.1 < (ROWS : Int) ∧ 0 ≤ p.2 ∧ p.2 < (COLUMNS : Int)) :
    layTile row column t w
      = .ok { floor := paint w.floor t (footprint t row column),
              tileCounts := bump w.tileCounts t, drawn := w.drawn } := by
  simp [layTile, layTileSwitch_of_within row column t w h]

theorem paint_apply (fl : Floor) (t : tile) (cells : List (Int × Int))
    (r : Fin ROWS) (c : Fin COLUMNS) :
    paint fl t cells r c
      = if (((r : Nat) : Int), ((c : Nat) : Int)) ∈ cells then t else fl r c := by
  unfold paint
  induction cells generalizing fl with
  | nil => simp
  | cons p ps ih =>
    rw [List.foldl_cons, ih]
    by_cases hp : (((r : Nat) : Int), ((c : Nat) : Int)) ∈ ps
    · simp [hp]
    · by_cases he : (((r : Nat) : Int), ((c : Nat) : Int)) = p
      · simp [hp, put, ← he]
      · have he2 : ¬ (((r : Nat) : Int) = p.1 ∧ ((c : Nat) : Int) = p.2) := by
          rintro ⟨h1, h2⟩
          exact he (Prod.ext h1 h2)
        simp [hp, put, he, he2]

theorem fits_iff (fl : Floor) (t : tile) (row column : Int) :
    fits fl t row column = true ↔ ∀ p ∈ footprint t row column, isFree fl p.1 p.2 = true := by
  simp [fits, List.all_eq_true]

theorem fits_within (fl : Floor) (t : tile) (row column : Int)
    (h : fits fl t row column = true) :
    ∀ p ∈ footprint t row column,
      0 ≤ p.1 ∧ p.1 < (ROWS : Int) ∧ 0 ≤ p.2 ∧ p.2 < (COLUMNS : Int) :=
  fun p hp => isFree_within fl p.1 p.2 ((fits_iff fl t row column).1 h p hp)

theorem origin_mem_footprint (t : tile) (row column : Int) (h : t ≠ Z) :
    (row, column) ∈ footprint t row column := by
  cases t <;> simp [footprint] at h ⊢

/-- The possible results of one iteration of the loop body: a laid (or non-existent) cell
leaves the globals as they are; at a free cell a kind that fits is laid. -/
theorem scanBody_cases (rnd : Nat → Nat) (row column : Int) (w : World) :
    (isFree w.floor row column = false ∧ chooseTile rnd row column w = .skip ∧
      scanBody rnd row column w = .ok w) ∨
    (isFree w.floor row column = true ∧
      ∃ t, t ≠ Z ∧ fits w.floor t row column = true ∧
        chooseTile rnd row column w = .place t { w with drawn := w.drawn + 1 } ∧
        scanBody rnd row column w
          = .ok { floor := paint w.floor t (footprint t row column),
                  tileCounts := bump w.tileCounts t, drawn := w.drawn + 1 }) := by
  rcases chooseTile_cases rnd row column w with ⟨hf, hc⟩ | ⟨hf, sv, t, _, _, _, hfit, htz, hc⟩
  · left
    exact ⟨hf, hc, by simp [scanBody, hc]⟩
  · right
    refine ⟨hf, t, htz, hfit, hc, ?_⟩
    simp only [scanBody, hc]
    rw [layTile_of_within row column t _ (fits_within w.floor t row column hfit)]

/-! ## The scan as a sequence of steps -/

theorem scanBody_ok (rnd : Nat → Nat) (row column : Int) (w : World) :
    ∃ w1, scanBody rnd row column w = .ok w1 := by
  rcases scanBody_cases rnd row column w with ⟨_, _, h⟩ | ⟨_, t, _, _, _, h⟩
  · exact ⟨_, h⟩
  · exact ⟨_, h⟩

theorem runSteps_ok (rnd : Nat → Nat) (w : World) (n : Nat) :
    ∃ w1, runSteps rnd w n = .ok w1 := by
  induction n with
  | zero => exact ⟨w, rfl⟩
  | succ n ih =>
    obtain ⟨w1, h1⟩ := ih
    obtain ⟨w2, h2⟩ := scanBody_ok rnd ((n / COLUMNS : Nat) : Int) ((n % COLUMNS : Nat) : Int) w1
    exact ⟨w2, by simp only [runSteps, h1, Outcome.andThen]; exact h2⟩

theorem runSteps_succ (rnd : Nat → Nat) (w w1 : World) (n : Nat)
    (h : runSteps rnd w n = .ok w1) :
    runSteps rnd w (n + 1)
      = scanBody rnd ((n / COLUMNS : Nat) : Int) ((n % COLUMNS : Nat) : Int) w1 := by
  simp [runSteps, h, Outcome.andThen]

theorem scanRow_runSteps (rnd : Nat → Nat) (w : World) (r k : Nat) (hk : k ≤ COLUMNS) :
    (List.range k).foldl
        (fun o (currentColumn : Nat) => o.andThen (scanBody rnd (r : Int) (currentColumn : Int)))
        (runSteps rnd w (r * COLUMNS))
      = runSteps rnd w (r * COLUMNS + k) := by
  induction k with
  | zero => simp
  | succ k ih =>
    have hk1 : k < COLUMNS := hk
    rw [List.range_succ, List.foldl_append, ih (by omega)]
    have hd : (r * COLUMNS + k) / COLUMNS = r := by
      rw [Nat.add_comm, Nat.add_mul_div_right _ _ (by omega), Nat.div_eq_of_lt hk1]
      omega
    have hm : (r * COLUMNS + k) % COLUMNS = k := by
      rw [Nat.add_comm, Nat.add_mul_mod_self_right, Nat.mod_eq_of_lt hk1]
    simp only [List.foldl_cons, List.foldl_nil]
    show _ = runSteps rnd w ((r * COLUMNS + k) + 1)
    simp only [runSteps, hd, hm]

/-- The nested loops of `makePattern` perform the `ROWS * COLUMNS` iterations of the loop
body in row-major order. -/
theorem makePattern_eq_runSteps (rnd : Nat → Nat) (w : World) :
    makePattern rnd w = runSteps rnd w (ROWS * COLUMNS) := by
  unfold makePattern
  suffices h : ∀ j, j ≤ ROWS →
      (List.range j).foldl (fun o currentRow => scanRow rnd currentRow o) (.ok w)
        = runSteps rnd w (j * COLUMNS) from h ROWS (le_refl _)
  intro j
  induction j with
  | zero => intro _; simp [runSteps]
  | succ j ih =>
    intro hj
    rw [List.range_succ, List.foldl_append, ih (by omega)]
    simp only [List.foldl_cons, List.foldl_nil, scanRow]
    rw [scanRow_runSteps rnd w j COLUMNS (le_refl _)]
    congr 1
    ring

theorem scanBody_keeps_laid (rnd : Nat → Nat) (row column : Int) (w w1 : World)
    (h : scanBody rnd row column w = .ok w1) (r : Fin ROWS) (c : Fin COLUMNS)
    (hl : w.floor r c ≠ Z) : w1.floor r c = w.floor r c := by
  rcases scanBody_cases rnd row column w with ⟨_, _, h2⟩ | ⟨_, t, _, hfit, _, h2⟩
  · rw [h2] at h
    injection h with h
    rw [← h]
  · rw [h2] at h
    injection h with h
    rw [← h]
    show paint w.floor t (footprint t row column) r c = w.floor r c
    rw [paint_apply]
    split
    · rename_i hmem
      have := (fits_iff w.floor t row column).1 hfit _ hmem
      rw [isFree_cell] at this
      exact absurd (of_decide_eq_true this) hl
    · rfl

theorem scanBody_lays_target (rnd : Nat → Nat) (w w1 : World) (r : Fin ROWS) (c : Fin COLUMNS)
    (h : scanBody rnd ((r : Nat) : Int) ((c : Nat) : Int) w = .ok w1) :
    w1.floor r c ≠ Z := by
  rcases scanBody_cases rnd ((r : Nat) : Int) ((c : Nat) : Int) w with
    ⟨hf, _, h2⟩ | ⟨_, t, htz, _, _, h2⟩
  · rw [h2] at h
    injection h with h
    rw [← h]
    rw [isFree_cell] at hf
    exact of_decide_eq_false hf
  · rw [h2] at h
    injection h with h
    rw [← h]
    show paint w.floor t (footprint t _ _) r c ≠ Z
    rw [paint_apply, if_pos (origin_mem_footprint t _ _ htz)]
    exact htz

theorem runSteps_keeps_laid (rnd : Nat → Nat) (w : World) (n m : Nat) (hnm : n ≤ m)
    (w1 w2 : World) (h1 : runSteps rnd w n = .ok w1) (h2 : runSteps rnd w m = .ok w2)
    (r : Fin ROWS) (c : Fin COLUMNS) (hl : w1.floor r c ≠ Z) :
    w2.floor r c = w1.floor r c := by
  induction m generalizing w2 with
  | zero =>
    have : n = 0 := by omega
    subst this
    rw [h1] at h2
    injection h2 with h2
    rw [h2]
  | succ m ih =>
    by_cases hn : n = m + 1
    · subst hn
      rw [h1] at h2
      injection h2 with h2
      rw [h2]
    · obtain ⟨wm, hm⟩ := runSteps_ok rnd w m
      have hprev := ih (by omega) wm hm
      rw [runSteps_succ rnd w wm m hm] at h2
      rw [scanBody_keeps_laid rnd _ _ wm w2 h2 r c (by rw [hprev]; exact hl), hprev]

theorem runSteps_laid_before (rnd : Nat → Nat) (w : World) (n : Nat) (w1 : World)
    (h1 : runSteps rnd w n = .ok w1) (r : Fin ROWS) (c : Fin COLUMNS)
    (hlt : (r : Nat) * COLUMNS + (c : Nat) < n) : w1.floor r c ≠ Z := by
  obtain ⟨wa, ha⟩ := runSteps_ok rnd w ((r : Nat) * COLUMNS + (c : Nat))
  obtain ⟨wb, hb⟩ := runSteps_ok rnd w ((r : Nat) * COLUMNS + (c : Nat) + 1)
  have hc := c.isLt
  have hd : ((r : Nat) * COLUMNS + (c : Nat)) / COLUMNS = r := by
    rw [Nat.add_comm, Nat.add_mul_div_right _ _ (by omega), Nat.div_eq_of_lt hc]
    omega
  have hm : ((r : Nat) * COLUMNS + (c : Nat)) % COLUMNS = c := by
    rw [Nat.add_comm, Nat.add_mul_mod_self_right, Nat.mod_eq_of_lt hc]
  have hstep := runSteps_succ rnd w wa _ ha
  rw [hb, hd, hm] at hstep
  have hlaid := scanBody_lays_target rnd wa wb r c hstep.symm
  rw [runSteps_keeps_laid rnd w _ n (by omega) wb w1 hb h1 r c hlaid]
  exact hlaid

theorem cell_index_lt (r : Fin ROWS) (c : Fin COLUMNS) :
    (r : Nat) * COLUMNS + (c : Nat) < ROWS * COLUMNS := by
  have hr := r.isLt
  have hc := c.isLt
  have h1 : ((r : Nat) + 1) * COLUMNS ≤ ROWS * COLUMNS := Nat.mul_le_mul_right _ hr
  have h2 : ((r : Nat) + 1) * COLUMNS = (r : Nat) * COLUMNS + COLUMNS := by ring
  omega

theorem div_lt_rows (n : Nat) (h : n < ROWS * COLUMNS) : n / COLUMNS < ROWS :=
  Nat.div_lt_of_lt_mul (by rw [Nat.mul_comm]; exact h)

theorem mod_lt_columns (n : Nat) (h : n < ROWS * COLUMNS) : n % COLUMNS < COLUMNS := by
  apply Nat.mod_lt
  rcases Nat.eq_zero_or_pos COLUMNS with h0 | h0
  · rw [h0] at h; simp at h
  · exact h0

theorem chooseTile_place (rnd : Nat → Nat) (row column : Int) (w w1 : World) (t : tile)
    (h : chooseTile rnd row column w = .place t w1) :
    isFree w.floor row column = true ∧ t ≠ Z ∧ fits w.floor t row column = true ∧
      w1 = { w with drawn := w.drawn + 1 } ∧
      scanBody rnd row column w
        = .ok { floor := paint w.floor t (footprint t row column),
                tileCounts := bump w.tileCounts t, drawn := w.drawn + 1 } := by
  rcases scanBody_cases rnd row column w with ⟨_, hc, _⟩ | ⟨hf, t2, htz, hfit, hc, hs⟩
  · rw [hc] at h
    exact Choice.noConfusion h
  · rw [hc] at h
    injection h with h1 h2
    subst h1
    exact ⟨hf, htz, hfit, h2.symm, hs⟩

theorem index_paint (fl : Floor) (t : tile) (cells : List (Int × Int)) (row column : Int) :
    index (paint fl t cells) row column
      = if (row, column) ∈ cells then (index fl row column).map (fun _ => t)
        else index fl row column := by
  by_cases h : 0 ≤ row ∧ row < (ROWS : Int) ∧ 0 ≤ column ∧ column < (COLUMNS : Int)
  · rw [index_of_within _ _ _ h, index_of_within _ _ _ h, paint_apply]
    have h1 : ((row.toNat : Nat) : Int) = row := Int.toNat_of_nonneg h.1
    have h2 : ((column.toNat : Nat) : Int) = column := Int.toNat_of_nonneg h.2.2.1
    simp only [h1, h2]
    split <;> simp
  · rw [index_of_not_within _ _ _ h, index_of_not_within _ _ _ h]
    simp

theorem index_paint_of_fits (fl : Floor) (t : tile) (row column : Int)
    (hfit : fits fl t row column = true) (p : Int × Int) (hp : p ∈ footprint t row column) :
    index (paint fl t (footprint t row column)) p.1 p.2 = some t := by
  have hfree := (fits_iff fl t row column).1 hfit p hp
  rw [index_paint, if_pos hp]
  simp only [isFree, decide_eq_true_eq] at hfree
  rw [hfree]
  rfl

theorem index_keeps_laid (rnd : Nat → Nat) (w : World) (n m : Nat) (hnm : n ≤ m)
    (w1 w2 : World) (h1 : runSteps rnd w n = .ok w1) (h2 : runSteps rnd w m = .ok w2)
    (row column : Int) (t : tile) (ht : t ≠ Z) (hi : index w1.floor row column = some t) :
    index w2.floor row column = some t := by
  by_cases h : 0 ≤ row ∧ row < (ROWS : Int) ∧ 0 ≤ column ∧ column < (COLUMNS : Int)
  · rw [index_of_within _ _ _ h] at hi ⊢
    injection hi with hi
    rw [runSteps_keeps_laid rnd w n m hnm w1 w2 h1 h2 _ _ (by rw [hi]; exact ht), hi]
  · rw [index_of_not_within _ _ _ h] at hi
    exact Option.noConfusion hi

/-! ## Counting laid cells -/

theorem laidCells_put_cell (fl : Floor) (r : Fin ROWS) (c : Fin COLUMNS) (t : tile)
    (ht : t ≠ Z) (hz : fl r c = Z) :
    laidCells (put fl ((r : Nat) : Int) ((c : Nat) : Int) t) = laidCells fl + 1 := by
  unfold laidCells
  have hset : Finset.univ.filter
        (fun p : Fin ROWS × Fin COLUMNS =>
          put fl ((r : Nat) : Int) ((c : Nat) : Int) t p.1 p.2 ≠ Z)
      = insert (r, c) (Finset.univ.filter (fun p : Fin ROWS × Fin COLUMNS => fl p.1 p.2 ≠ Z)) := by
    ext ⟨r2, c2⟩
    simp only [Finset.mem_filter, Finset.mem_univ, true_and, Finset.mem_insert,
      Prod.mk.injEq, put]
    by_cases h : r2 = r ∧ c2 = c
    · obtain ⟨h1, h2⟩ := h
      subst h1
      subst h2
      simp [ht]
    · have h2 : ¬ (((r2 : Nat) : Int) = ((r : Nat) : Int) ∧ ((c2 : Nat) : Int) = ((c : Nat) : Int)) := by
        rintro ⟨h1, h2⟩
        apply h
        constructor
        · apply Fin.ext
          omega
        · apply Fin.ext
          omega
      have h3 : ¬ ((r2 : Nat) = (r : Nat) ∧ (c2 : Nat) = (c : Nat)) := by
        rintro ⟨h1, h2⟩
        exact h ⟨Fin.ext h1, Fin.ext h2⟩
      simp [h, h2, h3]
  rw [hset, Finset.card_insert_of_not_mem]
  simp [hz]

theorem laidCells_put (fl : Floor) (row column : Int) (t : tile) (ht : t ≠ Z)
    (hfree : isFree fl row column = true) :
    laidCells (put fl row column t) = laidCells fl + 1 := by
  have hin := isFree_within fl row column hfree
  have h1 : ((row.toNat : Nat) : Int) = row := Int.toNat_of_nonneg hin.1
  have h2 : ((column.toNat : Nat) : Int) = column := Int.toNat_of_nonneg hin.2.2.1
  simp only [isFree, decide_eq_true_eq] at hfree
  rw [index_of_within fl row column hin] at hfree
  injection hfree with hfree
  have := laidCells_put_cell fl ⟨row.toNat, by omega⟩ ⟨column.toNat, by omega⟩ t ht hfree
  simpa only [h1, h2] using this

theorem isFree_put_of_ne (fl : Floor) (row column : Int) (t : tile) (p : Int × Int)
    (hne : p ≠ (row, column)) :
    isFree (put fl row column t) p.1 p.2 = isFree fl p.1 p.2 := by
  have h := index_paint fl t [(row, column)] p.1 p.2
  have hp : (p.1, p.2) ∉ [(row, column)] := by
    simpa using hne
  rw [if_neg hp] at h
  have hpaint : paint fl t [(row, column)] = put fl row column t := rfl
  rw [hpaint] at h
  simp only [isFree, h]

theorem laidCells_paint (fl : Floor) (t : tile) (cells : List (Int × Int)) (ht : t ≠ Z)
    (hnd : cells.Nodup) (hfree : ∀ p ∈ cells, isFree fl p.1 p.2 = true) :
    laidCells (paint fl t cells) = laidCells fl + cells.length := by
  induction cells generalizing fl with
  | nil => simp [paint]
  | cons p ps ih =>
    obtain ⟨hp, hps⟩ := List.nodup_cons.1 hnd
    have hstep : paint fl t (p :: ps) = paint (put fl p.1 p.2 t) t ps := rfl
    rw [hstep, ih (put fl p.1 p.2 t) hps, laidCells_put fl p.1 p.2 t ht
      (hfree p (List.mem_cons_self _ _))]
    · simp only [List.length_cons]
      omega
    · intro q hq
      rw [isFree_put_of_ne fl p.1 p.2 t q]
      · exact hfree q (List.mem_cons_of_mem _ hq)
      · intro hqp
        apply hp
        have : q = p := hqp
        rw [← this]
        exact hq

theorem footprint_nodup (t : tile) (row column : Int) : (footprint t row column).Nodup := by
  cases t <;> simp [footprint]

theorem laidCells_le (fl : Floor) : laidCells fl ≤ ROWS * COLUMNS := by
  unfold laidCells
  calc (Finset.univ.filter (fun p : Fin ROWS × Fin COLUMNS => fl p.1 p.2 ≠ Z)).card
      ≤ (Finset.univ : Finset (Fin ROWS × Fin COLUMNS)).card := Finset.card_filter_le _ _
    _ = ROWS * COLUMNS := by simp

theorem laidCells_of_all_laid (fl : Floor) (h : ∀ r c, fl r c ≠ Z) :
    laidCells fl = ROWS * COLUMNS := by
  unfold laidCells
  have hall : Finset.univ.filter (fun p : Fin ROWS × Fin COLUMNS => fl p.1 p.2 ≠ Z)
      = Finset.univ := by
    ext p
    simp [h p.1 p.2]
  rw [hall]
  simp

theorem laidCells_emptyFloor : laidCells emptyFloor = 0 := by
  simp [laidCells, emptyFloor]

theorem countOf_bump (tc : Option Counts) (t k : tile) :
    countOf (bump tc t) k
      = if k = t then wrap32 (countOf tc t + 1) else countOf tc k := by
  cases tc with
  | none => by_cases h : k = t <;> simp [countOf, bump, h]
  | some m => by_cases h : k = t <;> simp [countOf, bump, h]

theorem wrap32_of_small (x : Int) (h0 : -2147483648 ≤ x) (h1 : x < 2147483647) :
    wrap32 (x + 1) = x + 1 := by
  unfold wrap32
  omega

theorem countsMatch_step (w : World) (t : tile) (row column : Int) (ht : t ≠ Z)
    (hfit : fits w.floor t row column = true) (hinv : CountsMatch w) (d : Nat) :
    CountsMatch { floor := paint w.floor t (footprint t row column),
                  tileCounts := bump w.tileCounts t, drawn := d } := by
  obtain ⟨hsum, hpos, hz⟩ := hinv
  have hlaid := laidCells_paint w.floor t (footprint t row column) ht
    (footprint_nodup t row column) ((fits_iff w.floor t row column).1 hfit)
  have hle := laidCells_le (paint w.floor t (footprint t row column))
  have h900 : ROWS * COLUMNS = 900 := by decide
  have hA := hpos A
  have hB := hpos B
  have hC := hpos C
  have hD := hpos D
  unfold coveredByCounts at hsum
  have hsmall : countOf w.tileCounts t < 2147483647 := by
    cases t
    · exact absurd rfl ht
    all_goals omega
  have hw := wrap32_of_small (countOf w.tileCounts t) (by have := hpos t; omega) hsmall
  refine ⟨?_, ?_, ?_⟩
  · show coveredByCounts (bump w.tileCounts t)
      = (laidCells (paint w.floor t (footprint t row column)) : Int)
    rw [hlaid]
    unfold coveredByCounts
    simp only [countOf_bump, hw]
    cases t
    · exact absurd rfl ht
    all_goals simp [footprint]
    all_goals omega
  · intro k
    show 0 ≤ countOf (bump w.tileCounts t) k
    rw [countOf_bump, hw]
    have := hpos k
    have := hpos t
    split <;> omega
  · intro m hm
    have hm2 : bump w.tileCounts t = some m := hm
    cases htc : w.tileCounts with
    | none =>
      rw [htc] at hm2
      simp only [bump] at hm2
      injection hm2 with hm2
      rw [← hm2]
      simp [Ne.symm ht]
    | some m0 =>
      rw [htc] at hm2
      simp only [bump] at hm2
      injection hm2 with hm2
      rw [← hm2]
      simp [Ne.symm ht, hz m0 htc]

theorem countsMatch_initial : CountsMatch initialWorld := by
  refine ⟨?_, ?_, ?_⟩
  · show coveredByCounts none = (laidCells emptyFloor : Int)
    rw [laidCells_emptyFloor]
    rfl
  · intro k
    show (0 : Int) ≤ 0
    exact le_refl _
  · intro m hm
    exact Option.noConfusion hm

theorem countsMatch_runSteps (rnd : Nat → Nat) (w0 : World) (h0 : CountsMatch w0) (n : Nat)
    (w : World) (h : runSteps rnd w0 n = .ok w) : CountsMatch w := by
  induction n generalizing w with
  | zero =>
    injection h with h
    rw [← h]
    exact h0
  | succ n ih =>
    obtain ⟨wn, hn⟩ := runSteps_ok rnd w0 n
    rw [runSteps_succ rnd w0 wn n hn] at h
    rcases scanBody_cases rnd ((n / COLUMNS : Nat) : Int) ((n % COLUMNS : Nat) : Int) wn with
      ⟨_, _, hs⟩ | ⟨_, t, htz, hfit, _, hs⟩
    · rw [hs] at h
      injection h with h
      rw [← h]
      exact ih wn hn
    · rw [hs] at h
      injection h with h
      rw [← h]
      exact countsMatch_step wn t _ _ htz hfit (ih wn hn) _

theorem countsMatch_bounded (w : World) (h : CountsMatch w) (k : tile) :
    0 ≤ countOf w.tileCounts k ∧ countOf w.tileCounts k ≤ 900 := by
  obtain ⟨hsum, hpos, hz⟩ := h
  have hle := laidCells_le w.floor
  have h900 : ROWS * COLUMNS = 900 := by decide
  have hA := hpos A
  have hB := hpos B
  have hC := hpos C
  have hD := hpos D
  unfold coveredByCounts at hsum
  refine ⟨hpos k, ?_⟩
  cases k
  · cases htc : w.tileCounts with
    | none => simp [countOf]
    | some m => simp [countOf, hz m htc]
  all_goals omega

/-! ## `layTile` outside its precondition -/

theorem layTileSwitch_eq_assignAll (row column : Int) (t : tile) (w : World) :
    layTileSwitch row column t w = assignAll t (footprint t row column) (.ok w) := by
  cases t <;> rfl

theorem assignAll_panic (t : tile) (cells : List (Int × Int)) (w : World) :
    assignAll t cells (.panic w) = .panic w := by
  induction cells with
  | nil => rfl
  | cons p ps ih =>
    show assignAll t ps ((Outcome.panic w).andThen (assign p.1 p.2 t)) = .panic w
    exact ih

theorem assignAll_append (t : tile) (xs ys : List (Int × Int)) (o : Outcome) :
    assignAll t (xs ++ ys) o = assignAll t ys (assignAll t xs o) := by
  simp [assignAll, List.foldl_append]

theorem assignAll_of_within (t : tile) (cells : List (Int × Int)) (w : World)
    (h : ∀ p ∈ cells, 0 ≤ p.1 ∧ p.1 < (ROWS : Int) ∧ 0 ≤ p.2 ∧ p.2 < (COLUMNS : Int)) :
    assignAll t cells (.ok w) = .ok { w with floor := paint w.floor t cells } := by
  induction cells generalizing w with
  | nil => rfl
  | cons p ps ih =>
    have hp := h p (List.mem_cons_self _ _)
    show assignAll t ps ((Outcome.ok w).andThen (assign p.1 p.2 t)) = _
    simp only [Outcome.andThen, assign_of_within p.1 p.2 t w hp]
    rw [ih _ (fun q hq => h q (List.mem_cons_of_mem _ hq))]
    rfl

theorem assignAll_stops (t : tile) (pre post : List (Int × Int)) (p : Int × Int) (w : World)
    (hpre : ∀ q ∈ pre, 0 ≤ q.1 ∧ q.1 < (ROWS : Int) ∧ 0 ≤ q.2 ∧ q.2 < (COLUMNS : Int))
    (hp : ¬ (0 ≤ p.1 ∧ p.1 < (ROWS : Int) ∧ 0 ≤ p.2 ∧ p.2 < (COLUMNS : Int))) :
    assignAll t (pre ++ p :: post) (.ok w)
      = .panic { w with floor := paint w.floor t pre } := by
  rw [assignAll_append, assignAll_of_within t pre w hpre]
  show assignAll t post ((Outcome.ok _).andThen (assign p.1 p.2 t)) = _
  simp only [Outcome.andThen, assign_of_not_within p.1 p.2 t _ hp]
  exact assignAll_panic t post _

theorem makePattern_ok (rnd : Nat → Nat) (w : World) :
    ∃ wf, makePattern rnd w = .ok wf := by
  rw [makePattern_eq_runSteps]
  exact runSteps_ok rnd w _

/-! ## Claims -/

/-- C1 (coverage). For every sequence of random draws, `makePattern` started on the
all-unlaid floor returns normally, and in the floor it leaves every cell `floor[r][c]`
with `0 ≤ r < ROWS` and `0 ≤ c < COLUMNS` is different from `Z`. -/
theorem makePattern_covers (rnd : Nat → Nat) :
    ∃ w, makePattern rnd initialWorld = .ok w ∧
      ∀ (r : Fin ROWS) (c : Fin COLUMNS), w.floor r c ≠ Z := by
  obtain ⟨w, hw⟩ := runSteps_ok rnd initialWorld (ROWS * COLUMNS)
  refine ⟨w, by rw [makePattern_eq_runSteps, hw], ?_⟩
  intro r c
  exact runSteps_laid_before rnd initialWorld _ w hw r c (cell_index_lt r c)

/-- C2 (no overlap, monotonicity). In a run of `makePattern` from the all-unlaid floor,
for every sequence of random draws: the run is the sequence of scan steps `runSteps`;
every cell that a `layTile` call is about to write is `Z` in the floor at the time of the
call; a cell that is laid keeps its value at every later step; and the cells covered by
two different placements are disjoint. -/
theorem makePattern_no_overlap (rnd : Nat → Nat) :
    makePattern rnd initialWorld = runSteps rnd initialWorld (ROWS * COLUMNS) ∧
    (∀ (n : Nat) (w w1 : World) (t : tile), n < ROWS * COLUMNS →
      runSteps rnd initialWorld n = .ok w →
      chooseTile rnd ((n / COLUMNS : Nat) : Int) ((n % COLUMNS : Nat) : Int) w = .place t w1 →
      ∀ p ∈ footprint t ((n / COLUMNS : Nat) : Int) ((n % COLUMNS : Nat) : Int),
        index w1.floor p.1 p.2 = some Z) ∧
    (∀ (n m : Nat) (w w2 : World), n ≤ m → m ≤ ROWS * COLUMNS →
      runSteps rnd initialWorld n = .ok w → runSteps rnd initialWorld m = .ok w2 →
      ∀ (r : Fin ROWS) (c : Fin COLUMNS), w.floor r c ≠ Z → w2.floor r c = w.floor r c) ∧
    (∀ (n m : Nat) (w w1 w2 w3 : World) (t t2 : tile), n < m → m < ROWS * COLUMNS →
      runSteps rnd initialWorld n = .ok w →
      chooseTile rnd ((n / COLUMNS : Nat) : Int) ((n % COLUMNS : Nat) : Int) w = .place t w1 →
      runSteps rnd initialWorld m = .ok w2 →
      chooseTile rnd ((m / COLUMNS : Nat) : Int) ((m % COLUMNS : Nat) : Int) w2 = .place t2 w3 →
      ∀ p ∈ footprint t ((n / COLUMNS : Nat) : Int) ((n % COLUMNS : Nat) : Int),
        p ∉ footprint t2 ((m / COLUMNS : Nat) : Int) ((m % COLUMNS : Nat) : Int)) := by
  refine ⟨makePattern_eq_runSteps rnd initialWorld, ?_, ?_, ?_⟩
  · intro n w w1 t _ _ hc p hp
    obtain ⟨_, _, hfit, hw1, _⟩ := chooseTile_place rnd _ _ w w1 t hc
    have hfree := (fits_iff w.floor t _ _).1 hfit p hp
    rw [hw1]
    simpa [isFree] using hfree
  · intro n m w w2 hnm _ hn hm r c hl
    exact runSteps_keeps_laid rnd initialWorld n m hnm w w2 hn hm r c hl
  · intro n m w w1 w2 w3 t t2 hnm _ hn hcn hm hcm p hp hp2
    obtain ⟨_, htz, hfit, _, hs⟩ := chooseTile_place rnd _ _ w w1 t hcn
    obtain ⟨_, _, hfit2, _, _⟩ := chooseTile_place rnd _ _ w2 w3 t2 hcm
    have hnext := runSteps_succ rnd initialWorld w n hn
    rw [hs] at hnext
    have hpainted := index_paint_of_fits w.floor t _ _ hfit p hp
    have hlater := index_keeps_laid rnd initialWorld (n + 1) m (by omega) _ w2 hnext hm
      p.1 p.2 t htz hpainted
    have hfree := (fits_iff w2.floor t2 _ _).1 hfit2 p hp2
    simp only [isFree, decide_eq_true_eq] at hfree
    rw [hfree] at hlater
    injection hlater with hlater
    exact htz hlater.symm

/-- Witness for `makePattern_no_overlap`: with every draw equal to zero, step 0 lays `A`
at `(0, 0)` and step 1 lays `B` at `(0, 1)`. -/
theorem makePattern_no_overlap_witness :
    index initialWorld.floor 0 0 = some Z ∧
    (runSteps (fun _ => 0) initialWorld 2).world.floor ⟨0, by decide⟩ ⟨0, by decide⟩
      = (runSteps (fun _ => 0) initialWorld 1).world.floor ⟨0, by decide⟩ ⟨0, by decide⟩ ∧
    (0, 0) ∉ footprint B (((1 / COLUMNS : Nat) : Nat) : Int) (((1 % COLUMNS : Nat) : Nat) : Int) :=
  ⟨(makePattern_no_overlap (fun _ => 0)).2.1 0 initialWorld
      { initialWorld with drawn := 1 } A (by decide) rfl rfl (0, 0) (by simp [footprint]),
   (makePattern_no_overlap (fun _ => 0)).2.2.1 1 2
      (runSteps (fun _ => 0) initialWorld 1).world (runSteps (fun _ => 0) initialWorld 2).world
      (by decide) (by decide) rfl rfl ⟨0, by decide⟩ ⟨0, by decide⟩ (by decide),
   (makePattern_no_overlap (fun _ => 0)).2.2.2 0 1 initialWorld
      { initialWorld with drawn := 1 } (runSteps (fun _ => 0) initialWorld 1).world
      { (runSteps (fun _ => 0) initialWorld 1).world with drawn := 2 } A B
      (by decide) (by decide) rfl rfl rfl rfl (0, 0) (by simp [footprint])⟩

/-- C3 (footprint consistency). If a scan step of `makePattern` (started on the all-unlaid
floor, any random draws) places kind `t` with origin `(r, c)`, then in the final floor
every cell of the footprint carries `t`: `(r,c)` for `A`; `(r,c)`, `(r,c+1)` for `B`;
`(r,c)`, `(r+1,c)` for `C`; `(r,c)`, `(r,c+1)`, `(r+1,c)`, `(r+1,c+1)` for `D`; and `t` is
one of these four kinds. -/
theorem makePattern_footprint_consistent (rnd : Nat → Nat) (n : Nat) (w w1 wf : World)
    (t : tile) (hn : n < ROWS * COLUMNS)
    (hrun : runSteps rnd initialWorld n = .ok w)
    (hc : chooseTile rnd ((n / COLUMNS : Nat) : Int) ((n % COLUMNS : Nat) : Int) w
      = .place t w1)
    (hf : makePattern rnd initialWorld = .ok wf) :
    (t = A ∨ t = B ∨ t = C ∨ t = D) ∧
    (t = A → index wf.floor (n / COLUMNS : Nat) (n % COLUMNS : Nat) = some A) ∧
    (t = B → index wf.floor (n / COLUMNS : Nat) (n % COLUMNS : Nat) = some B ∧
      index wf.floor (n / COLUMNS : Nat) ((n % COLUMNS : Nat) + 1) = some B) ∧
    (t = C → index wf.floor (n / COLUMNS : Nat) (n % COLUMNS : Nat) = some C ∧
      index wf.floor ((n / COLUMNS : Nat) + 1) (n % COLUMNS : Nat) = some C) ∧
    (t = D → index wf.floor (n / COLUMNS : Nat) (n % COLUMNS : Nat) = some D ∧
      index wf.floor (n / COLUMNS : Nat) ((n % COLUMNS : Nat) + 1) = some D ∧
      index wf.floor ((n / COLUMNS : Nat) + 1) (n % COLUMNS : Nat) = some D ∧
      index wf.floor ((n / COLUMNS : Nat) + 1) ((n % COLUMNS : Nat) + 1) = some D) := by
  obtain ⟨_, htz, hfit, _, hs⟩ := chooseTile_place rnd _ _ w w1 t hc
  have hnext := runSteps_succ rnd initialWorld w n hrun
  rw [hs] at hnext
  rw [makePattern_eq_runSteps] at hf
  have hall : ∀ p ∈ footprint t ((n / COLUMNS : Nat) : Int) ((n % COLUMNS : Nat) : Int),
      index wf.floor p.1 p.2 = some t := fun p hp =>
    index_keeps_laid rnd initialWorld (n + 1) _ (by omega) _ wf hnext hf p.1 p.2 t htz
      (index_paint_of_fits w.floor t _ _ hfit p hp)
  refine ⟨by cases t <;> simp at htz ⊢, ?_, ?_, ?_, ?_⟩
  · intro h
    subst h
    exact hall (_, _) (by simp [footprint])
  · intro h
    subst h
    exact ⟨hall (_, _) (by simp [footprint]), hall (_, _) (by simp [footprint])⟩
  · intro h
    subst h
    exact ⟨hall (_, _) (by simp [footprint]), hall (_, _) (by simp [footprint])⟩
  · intro h
    subst h
    exact ⟨hall (_, _) (by simp [footprint]), hall (_, _) (by simp [footprint]),
      hall (_, _) (by simp [footprint]), hall (_, _) (by simp [footprint])⟩

/-- Witness for `makePattern_footprint_consistent`: with every draw equal to zero, step 0
lays `A` at `(0, 0)`, and the final floor has `A` there. -/
theorem makePattern_footprint_consistent_witness :
    ∃ wf, makePattern (fun _ => 0) initialWorld = .ok wf ∧
      index wf.floor ((0 / COLUMNS : Nat) : Int) ((0 % COLUMNS : Nat) : Int) = some A := by
  obtain ⟨wf, hwf⟩ := makePattern_ok (fun _ => 0) initialWorld
  exact ⟨wf, hwf, (makePattern_footprint_consistent (fun _ => 0) 0 initialWorld
    { initialWorld with drawn := 1 } wf A (by decide) rfl rfl hwf).2.1 rfl⟩

/-- C4 (adjacency avoidance at decision time). At every scan step at which a tile is
placed at `(row, column)` (in every state of the globals, so in particular in every state
reached by `makePattern`), whatever the random draw: if some kind returned by
`getCandidateTiles` differs from both `getLeftTile` and `getAboveTile`, the kind passed to
`layTile` differs from both; a kind equal to the left or the above kind is placed only
when every candidate equals the left or the above kind. -/
theorem chooseTile_avoids_repeat (rnd : Nat → Nat) (row column : Int) (w w1 : World)
    (t l a : tile) (cands : List tile)
    (hc : chooseTile rnd row column w = .place t w1)
    (hcands : getCandidateTiles w.floor row column = some cands)
    (hl : getLeftTile w.floor row column = some l)
    (ha : getAboveTile w.floor row column = some a) :
    scanBody rnd row column w = layTile row column t w1 ∧
    t ∈ cands ∧
    ((∃ k ∈ cands, k ≠ l ∧ k ≠ a) → t ≠ l ∧ t ≠ a) ∧
    ((t = l ∨ t = a) → ∀ k ∈ cands, k = l ∨ k = a) := by
  have hbody : scanBody rnd row column w = layTile row column t w1 := by
    simp [scanBody, hc]
  rw [getCandidateTiles_eq] at hcands
  injection hcands with hcands
  rcases chooseTile_cases rnd row column w with ⟨_, hs⟩ | ⟨_, sv, t2, hsv, hne, hget, _, _, hp⟩
  · rw [hs] at hc
    exact Choice.noConfusion hc
  · rw [hp] at hc
    injection hc with ht _
    subst ht
    rw [hcands, survivors_eq w.floor cands row column l a hl ha] at hsv
    injection hsv with hsv
    have hmem : t2 ∈ sv := List.getElem?_mem hget
    have hkey : (∃ k ∈ cands, k ≠ l ∧ k ≠ a) → t2 ≠ l ∧ t2 ≠ a := by
      rintro ⟨k, hk, hkl, hka⟩
      have hnn : cands.filter (fun k => !repeats l a k) ≠ [] := by
        intro hnil
        rw [List.filter_eq_nil_iff] at hnil
        exact hnil k hk (by simp [repeats, hkl, hka])
      rw [if_neg hnn] at hsv
      rw [← hsv] at hmem
      have := (List.mem_filter.1 hmem).2
      simpa [repeats] using this
    have hin : t2 ∈ cands := by
      rw [← hsv] at hmem
      split at hmem
      · exact hmem
      · exact (List.mem_filter.1 hmem).1
    refine ⟨hbody, hin, hkey, ?_⟩
    intro hrep k hk
    by_contra hcon
    push_neg at hcon
    obtain ⟨h1, h2⟩ := hkey ⟨k, hk, hcon.1, hcon.2⟩
    rcases hrep with h | h
    · exact h1 h
    · exact h2 h

/-- Witness for `chooseTile_avoids_repeat`: after step 0 has laid `A` at `(0, 0)` (every
draw equal to zero), the candidates at `(0, 1)` are `A, B, C, D`, the left neighbour is
`A`, there is no neighbour above, and the kind chosen is `B`. -/
theorem chooseTile_avoids_repeat_witness :
    scanBody (fun _ => 0) 0 1 (runSteps (fun _ => 0) initialWorld 1).world
      = layTile 0 1 B { (runSteps (fun _ => 0) initialWorld 1).world with drawn := 2 } ∧
    B ∈ [A, B, C, D] ∧
    ((∃ k ∈ [A, B, C, D], k ≠ A ∧ k ≠ Z) → B ≠ A ∧ B ≠ Z) ∧
    ((B = A ∨ B = Z) → ∀ k ∈ [A, B, C, D], k = A ∨ k = Z) :=
  chooseTile_avoids_repeat (fun _ => 0) 0 1 (runSteps (fun _ => 0) initialWorld 1).world
    { (runSteps (fun _ => 0) initialWorld 1).world with drawn := 2 }
    B A Z [A, B, C, D] rfl rfl rfl rfl

/-- C6 (boundary respect). For every floor state, cell and kind `k` returned by
`getCandidateTiles`, every cell of the footprint of `k` lies in
`[0, ROWS) × [0, COLUMNS)`; hence at every scan step the `layTile` call made by the loop
body writes only in-bounds cells and returns without an index-out-of-range panic. -/
theorem candidates_within_floor :
    (∀ (fl : Floor) (row column : Int) (cands : List tile) (k : tile),
      getCandidateTiles fl row column = some cands → k ∈ cands →
      ∀ p ∈ footprint k row column,
        0 ≤ p.1 ∧ p.1 < (ROWS : Int) ∧ 0 ≤ p.2 ∧ p.2 < (COLUMNS : Int)) ∧
    (∀ (rnd : Nat → Nat) (row column : Int) (w w1 : World) (t : tile),
      chooseTile rnd row column w = .place t w1 →
      scanBody rnd row column w = layTile row column t w1 ∧
      (∀ p ∈ footprint t row column,
        0 ≤ p.1 ∧ p.1 < (ROWS : Int) ∧ 0 ≤ p.2 ∧ p.2 < (COLUMNS : Int)) ∧
      (∃ w2, layTile row column t w1 = .ok w2 ∧
        ∀ (r : Fin ROWS) (c : Fin COLUMNS),
          (((r : Nat) : Int), ((c : Nat) : Int)) ∉ footprint t row column →
          w2.floor r c = w1.floor r c)) := by
  constructor
  · intro fl row column cands k hc hk
    rw [getCandidateTiles_eq] at hc
    injection hc with hc
    rw [← hc] at hk
    exact fits_within fl k row column (List.mem_filter.1 hk).2
  · intro rnd row column w w1 t hc
    obtain ⟨_, _, hfit, hw1, _⟩ := chooseTile_place rnd row column w w1 t hc
    have hin := fits_within w.floor t row column hfit
    refine ⟨by simp [scanBody, hc], hin, ?_⟩
    refine ⟨_, layTile_of_within row column t w1 hin, ?_⟩
    intro r c hnot
    show paint w1.floor t (footprint t row column) r c = w1.floor r c
    rw [paint_apply, if_neg hnot]

/-- Witness for `candidates_within_floor`: kind `D` at the origin of the all-unlaid floor,
and the placement of step 0 with every draw equal to zero. -/
theorem candidates_within_floor_witness :
    (∀ p ∈ footprint D 0 0,
      0 ≤ p.1 ∧ p.1 < (ROWS : Int) ∧ 0 ≤ p.2 ∧ p.2 < (COLUMNS : Int)) ∧
    (∃ w2, layTile 0 0 A { initialWorld with drawn := 1 } = .ok w2 ∧
      ∀ (r : Fin ROWS) (c : Fin COLUMNS),
        (((r : Nat) : Int), ((c : Nat) : Int)) ∉ footprint A 0 0 →
        w2.floor r c = emptyFloor r c) :=
  ⟨candidates_within_floor.1 emptyFloor 0 0 [A, B, C, D] D rfl (by decide),
   (candidates_within_floor.2 (fun _ => 0) 0 0 initialWorld { initialWorld with drawn := 1 } A
      rfl).2.2⟩

/-- C7 (`makePattern` never fails). In every state of the globals (so in every state
reached during the scan), for every cell and every random draw: the floor reads made
through `canLayTile`, `getLeftTile` and `getAboveTile` do not panic; `getCandidateTiles`
returns; when its list is non-empty, the list left after the optional filtering is
non-empty, `rand.Intn` is called with a positive argument and the index it returns is in
range; the loop body returns normally; and so does `makePattern`. -/
theorem makePattern_never_fails (rnd : Nat → Nat) (row column : Int) (w : World) :
    (∃ b, canLayTile w.floor row column = some b) ∧
    (∃ l, getLeftTile w.floor row column = some l) ∧
    (∃ a, getAboveTile w.floor row column = some a) ∧
    (∃ cands, getCandidateTiles w.floor row column = some cands ∧
      (cands ≠ [] → ∃ sv i w1 t, survivors w.floor cands row column = some sv ∧
        sv ≠ [] ∧ 0 < sv.length ∧ Intn rnd sv.length w = some (i, w1) ∧ i < sv.length ∧
        sv[i]? = some t ∧ chooseTile rnd row column w = .place t w1)) ∧
    (∃ w2, scanBody rnd row column w = .ok w2) ∧
    (∃ wf, makePattern rnd w = .ok wf) := by
  refine ⟨⟨_, canLayTile_eq w.floor row column⟩, getLeftTile_total w.floor row column,
    getAboveTile_total w.floor row column, ⟨_, getCandidateTiles_eq w.floor row column, ?_⟩,
    scanBody_ok rnd row column w, makePattern_ok rnd w⟩
  intro hne
  rcases chooseTile_cases rnd row column w with ⟨hf, _⟩ | ⟨_, sv, t, hsv, hsne, hget, _, _, hc⟩
  · exact absurd ((candidates_eq_nil_iff w.floor row column).2 hf) hne
  · have hpos : 0 < sv.length := List.length_pos.2 hsne
    have hsl : sv.length ≠ 0 := by omega
    exact ⟨sv, rnd w.drawn % sv.length, { w with drawn := w.drawn + 1 }, t, hsv, hsne, hpos,
      by simp [Intn, hsl], Nat.mod_lt _ hpos, hget, hc⟩

/-- Witness for `makePattern_never_fails`: the first loop iteration on the all-unlaid
floor has a non-empty candidate list. -/
theorem makePattern_never_fails_witness :
    ∃ sv i w1 t, survivors initialWorld.floor [A, B, C, D] 0 0 = some sv ∧
      sv ≠ [] ∧ 0 < sv.length ∧ Intn (fun _ => 0) sv.length initialWorld = some (i, w1) ∧
      i < sv.length ∧ sv[i]? = some t ∧
      chooseTile (fun _ => 0) 0 0 initialWorld = .place t w1 := by
  obtain ⟨cands, hc, h⟩ := (makePattern_never_fails (fun _ => 0) 0 0 initialWorld).2.2.2.1
  have hcands : cands = [A, B, C, D] := by
    have h1 : getCandidateTiles initialWorld.floor 0 0 = some [A, B, C, D] := rfl
    rw [h1] at hc
    injection hc with hc
    exact hc.symm
  subst hcands
  exact h (by decide)

/-- C8 (candidate legality and order). For every floor state and every cell,
`getCandidateTiles` returns a sublist of `[A, B, C, D]` (so in that order, without
duplicates and without `Z`) that contains `A` iff `canLayTile(r,c)`; `B` iff
`canLayTile(r,c)` and `canLayTile(r,c+1)`; `C` iff `canLayTile(r,c)` and
`canLayTile(r+1,c)`; `D` iff `canLayTile` holds at `(r,c)`, `(r,c+1)`, `(r+1,c)` and
`(r+1,c+1)`. -/
theorem getCandidateTiles_legal_ordered (fl : Floor) (row column : Int) :
    ∃ cands, getCandidateTiles fl row column = some cands ∧
      cands.Sublist [A, B, C, D] ∧ cands.Nodup ∧ Z ∉ cands ∧
      (A ∈ cands ↔ canLayTile fl row column = some true) ∧
      (B ∈ cands ↔ canLayTile fl row column = some true ∧
        canLayTile fl row (column + 1) = some true) ∧
      (C ∈ cands ↔ canLayTile fl row column = some true ∧
        canLayTile fl (row + 1) column = some true) ∧
      (D ∈ cands ↔ canLayTile fl row column = some true ∧
        canLayTile fl row (column + 1) = some true ∧
        canLayTile fl (row + 1) column = some true ∧
        canLayTile fl (row + 1) (column + 1) = some true) := by
  refine ⟨_, getCandidateTiles_eq fl row column, List.filter_sublist _, ?_, ?_, ?_, ?_, ?_, ?_⟩
  · exact List.Nodup.sublist (List.filter_sublist _) (by decide)
  · simp
  · simp [canLayTile_eq, fits, footprint]
  · simp [canLayTile_eq, fits, footprint]
  · simp [canLayTile_eq, fits, footprint]
  · simp [canLayTile_eq, fits, footprint]
    tauto

/-- C5 (count accuracy). Starting from the all-unlaid floor with the nil `tileCounts`, for
every sequence of random draws, after `makePattern`
`tileCounts[A] + 2*tileCounts[B] + 2*tileCounts[C] + 4*tileCounts[D] = ROWS*COLUMNS = 900`,
and the map has no entry for `Z`. -/
theorem makePattern_counts_accurate (rnd : Nat → Nat) :
    ∃ w m, makePattern rnd initialWorld = .ok w ∧ w.tileCounts = some m ∧ m Z = none ∧
      countOf w.tileCounts A + 2 * countOf w.tileCounts B + 2 * countOf w.tileCounts C
        + 4 * countOf w.tileCounts D = ((ROWS * COLUMNS : Nat) : Int) ∧
      ROWS * COLUMNS = 900 := by
  obtain ⟨w, hw⟩ := runSteps_ok rnd initialWorld (ROWS * COLUMNS)
  obtain ⟨hsum, _, hz⟩ := countsMatch_runSteps rnd initialWorld countsMatch_initial _ w hw
  have hall : ∀ (r : Fin ROWS) (c : Fin COLUMNS), w.floor r c ≠ Z := fun r c =>
    runSteps_laid_before rnd initialWorld _ w hw r c (cell_index_lt r c)
  rw [laidCells_of_all_laid w.floor hall] at hsum
  have h900 : ROWS * COLUMNS = 900 := by decide
  cases htc : w.tileCounts with
  | none =>
    rw [htc] at hsum
    simp [coveredByCounts, countOf, h900] at hsum
  | some m =>
    refine ⟨w, m, by rw [makePattern_eq_runSteps, hw], htc, hz m htc, ?_, h900⟩
    exact hsum

/-- C9 (`layTile` effect and frame). For every floor state, kind `k` in `{A, B, C, D}`
and origin whose footprint for `k` is in bounds, with `tileCounts[k]` an `int32` below the
largest one: `layTile` returns normally; afterwards every footprint cell holds `k`, every
cell outside the footprint is unchanged, `tileCounts[k]` is exactly one greater than
before (a nil map counting as all zeros), and the count of every other kind is unchanged.
The bound on the count holds in every state of the program: in every state that the scan
of `makePattern` reaches from the initial globals, every count lies between `0` and
`900`. -/
theorem layTile_effect_frame :
    (∀ (w : World) (k : tile) (row column : Int), k ≠ Z →
      (∀ p ∈ footprint k row column,
        0 ≤ p.1 ∧ p.1 < (ROWS : Int) ∧ 0 ≤ p.2 ∧ p.2 < (COLUMNS : Int)) →
      -2147483648 ≤ countOf w.tileCounts k → countOf w.tileCounts k < 2147483647 →
      ∃ w2, layTile row column k w = .ok w2 ∧
        (∀ p ∈ footprint k row column, index w2.floor p.1 p.2 = some k) ∧
        (∀ (r : Fin ROWS) (c : Fin COLUMNS),
          (((r : Nat) : Int), ((c : Nat) : Int)) ∉ footprint k row column →
          w2.floor r c = w.floor r c) ∧
        countOf w2.tileCounts k = countOf w.tileCounts k + 1 ∧
        (∀ j, j ≠ k → countOf w2.tileCounts j = countOf w.tileCounts j) ∧
        w2.drawn = w.drawn) ∧
    (∀ (rnd : Nat → Nat) (n : Nat) (w : World) (k : tile),
      runSteps rnd initialWorld n = .ok w →
      0 ≤ countOf w.tileCounts k ∧ countOf w.tileCounts k ≤ 900) := by
  constructor
  · intro w k row column _ hin h0 h1
    refine ⟨_, layTile_of_within row column k w hin, ?_, ?_, ?_, ?_, rfl⟩
    · intro p hp
      show index (paint w.floor k (footprint k row column)) p.1 p.2 = some k
      rw [index_paint, if_pos hp, index_of_within _ _ _ (hin p hp)]
      rfl
    · intro r c hnot
      show paint w.floor k (footprint k row column) r c = w.floor r c
      rw [paint_apply, if_neg hnot]
    · show countOf (bump w.tileCounts k) k = _
      rw [countOf_bump, if_pos rfl, wrap32_of_small _ h0 h1]
    · intro j hj
      show countOf (bump w.tileCounts k) j = _
      rw [countOf_bump, if_neg hj]
  · intro rnd n w k hrun
    exact countsMatch_bounded w (countsMatch_runSteps rnd initialWorld countsMatch_initial n w hrun) k

/-- Witness for `layTile_effect_frame`: after step 0 of the run whose draws are all zero
has laid `A` at `(0, 0)`, the count of `A` is `1`, and laying `A` at `(0, 1)` makes it
`2`. -/
theorem layTile_effect_frame_witness :
    (∃ w2, layTile 0 1 A (runSteps (fun _ => 0) initialWorld 1).world = .ok w2 ∧
      (∀ p ∈ footprint A 0 1, index w2.floor p.1 p.2 = some A) ∧
      (∀ (r : Fin ROWS) (c : Fin COLUMNS),
        (((r : Nat) : Int), ((c : Nat) : Int)) ∉ footprint A 0 1 →
        w2.floor r c = (runSteps (fun _ => 0) initialWorld 1).world.floor r c) ∧
      countOf w2.tileCounts A
        = countOf (runSteps (fun _ => 0) initialWorld 1).world.tileCounts A + 1 ∧
      (∀ j, j ≠ A → countOf w2.tileCounts j
        = countOf (runSteps (fun _ => 0) initialWorld 1).world.tileCounts j) ∧
      w2.drawn = (runSteps (fun _ => 0) initialWorld 1).world.drawn) ∧
    (0 ≤ countOf (runSteps (fun _ => 0) initialWorld 1).world.tileCounts A ∧
      countOf (runSteps (fun _ => 0) initialWorld 1).world.tileCounts A ≤ 900) :=
  ⟨layTile_effect_frame.1 (runSteps (fun _ => 0) initialWorld 1).world A 0 1 (by decide) (by
      intro p hp
      simp only [footprint, List.mem_singleton] at hp
      subst hp
      decide) (by decide) (by decide),
   layTile_effect_frame.2 (fun _ => 0) 1 (runSteps (fun _ => 0) initialWorld 1).world A rfl⟩

/-- C10, as the claim states it, fails twice.  `layTile(0, 0, A)` on a floor whose cell
`(0, 0)` already holds `B` does not panic and overwrites the cell.  `layTile(0, 59, B)` on
the initial globals, whose second footprint cell `(0, 60)` is out of bounds, panics, but
the cell `(0, 59)` has been written and `tileCounts[B]` has been incremented. -/
theorem layTile_not_fail_fast :
    index originLaid.floor 0 0 = some B ∧
    (layTile 0 0 A originLaid).isOk = true ∧
    index (layTile 0 0 A originLaid).world.floor 0 0 = some A ∧
    isWithinFloor 0 (59 + 1) = false ∧
    (layTile 0 59 B initialWorld).isOk = false ∧
    index initialWorld.floor 0 59 = some Z ∧
    index (layTile 0 59 B initialWorld).world.floor 0 59 = some B ∧
    countOf initialWorld.tileCounts B = 0 ∧
    countOf (layTile 0 59 B initialWorld).world.tileCounts B = 1 :=
  ⟨rfl, rfl, rfl, rfl, rfl, rfl, rfl, rfl, rfl⟩

/-- C10, amended.  `layTile` does not check its precondition.  When every cell of the
footprint of `k` at `(row, column)` is in bounds it returns normally, whether or not a
footprint cell is already laid: the footprint is overwritten with `k` and `tileCounts[k]`
is incremented.  When some footprint cell is out of bounds it panics at the first such
assignment, after the footprint cells assigned before it have been written, and the
deferred `tileCounts[k]++` has still run. -/
theorem layTile_unchecked (w : World) (k : tile) (row column : Int) :
    ((∀ p ∈ footprint k row column,
        0 ≤ p.1 ∧ p.1 < (ROWS : Int) ∧ 0 ≤ p.2 ∧ p.2 < (COLUMNS : Int)) →
      layTile row column k w
        = .ok { floor := paint w.floor k (footprint k row column),
                tileCounts := bump w.tileCounts k, drawn := w.drawn }) ∧
    (∀ (pre post : List (Int × Int)) (p : Int × Int),
      footprint k row column = pre ++ p :: post →
      (∀ q ∈ pre, 0 ≤ q.1 ∧ q.1 < (ROWS : Int) ∧ 0 ≤ q.2 ∧ q.2 < (COLUMNS : Int)) →
      ¬ (0 ≤ p.1 ∧ p.1 < (ROWS : Int) ∧ 0 ≤ p.2 ∧ p.2 < (COLUMNS : Int)) →
      layTile row column k w
        = .panic { floor := paint w.floor k pre,
                   tileCounts := bump w.tileCounts k, drawn := w.drawn }) := by
  constructor
  · intro hin
    exact layTile_of_within row column k w hin
  · intro pre post p hfp hpre hp
    simp only [layTile, layTileSwitch_eq_assignAll, hfp, assignAll_stops k pre post p w hpre hp]

/-- Witness for `layTile_unchecked`: `A` laid over the `B` at `(0, 0)`, and `B` laid at
`(0, 59)`, whose second cell `(0, 60)` is outside the floor. -/
theorem layTile_unchecked_witness :
    layTile 0 0 A originLaid
      = .ok { floor := paint originLaid.floor A (footprint A 0 0),
              tileCounts := bump originLaid.tileCounts A, drawn := originLaid.drawn } ∧
    layTile 0 59 B initialWorld
      = .panic { floor := paint initialWorld.floor B [(0, 59)],
                 tileCounts := bump initialWorld.tileCounts B, drawn := initialWorld.drawn } :=
  ⟨(layTile_unchecked originLaid A 0 0).1 (by
      intro p hp
      simp only [footprint, List.mem_singleton] at hp
      subst hp
      decide),
   (layTile_unchecked initialWorld B 0 59).2 [(0, 59)] [] (0, 59 + 1) rfl (by
      intro q hq
      simp only [List.mem_singleton] at hq
      subst hq
      decide) (by decide)⟩

/-! ## Neighbours -/

theorem getLeftTile_first (fl : Floor) (row : Int) : getLeftTile fl row 0 = some Z := by
  have h : isWithinFloor row (0 - 1) = false := by
    rw [← Bool.not_eq_true, isWithinFloor_iff]
    omega
  simp only [getLeftTile, h, Bool.not_false, if_true]

theorem getAboveTile_first (fl : Floor) (column : Int) : getAboveTile fl 0 column = some Z := by
  have h : isWithinFloor (0 - 1) column = false := by
    rw [← Bool.not_eq_true, isWithinFloor_iff]
    omega
  simp only [getAboveTile, h, Bool.not_false, if_true]

theorem getLeftTile_cell (fl : Floor) (r : Fin ROWS) (c c0 : Fin COLUMNS)
    (h : (c0 : Nat) + 1 = (c : Nat)) :
    getLeftTile fl ((r : Nat) : Int) ((c : Nat) : Int) = some (fl r c0) := by
  have hc : (((c : Nat) : Int) - 1) = ((c0 : Nat) : Int) := by omega
  have hw : isWithinFloor ((r : Nat) : Int) ((c0 : Nat) : Int) = true := by
    rw [isWithinFloor_iff]
    have := r.isLt
    have := c0.isLt
    omega
  simp only [getLeftTile, hc, hw, Bool.not_true, Bool.false_eq_true, if_false]
  exact index_cell fl r c0

theorem getAboveTile_cell (fl : Floor) (r r0 : Fin ROWS) (c : Fin COLUMNS)
    (h : (r0 : Nat) + 1 = (r : Nat)) :
    getAboveTile fl ((r : Nat) : Int) ((c : Nat) : Int) = some (fl r0 c) := by
  have hr : (((r : Nat) : Int) - 1) = ((r0 : Nat) : Int) := by omega
  have hw : isWithinFloor ((r0 : Nat) : Int) ((c : Nat) : Int) = true := by
    rw [isWithinFloor_iff]
    have := r0.isLt
    have := c.isLt
    omega
  simp only [getAboveTile, hr, hw, Bool.not_true, Bool.false_eq_true, if_false]
  exact index_cell fl r0 c

theorem candidates_ne_Z (fl : Floor) (row column : Int) (k : tile)
    (h : k ∈ [A, B, C, D].filter (fun k => fits fl k row column)) : k ≠ Z := by
  intro hz
  rw [hz] at h
  simp at h

/-- C11 (non-existent neighbours never match). For every floor state and in-bounds cell
`(r, c)`: `getLeftTile` returns `Z` when `c = 0` and `floor[r][c-1]` otherwise;
`getAboveTile` returns `Z` when `r = 0` and `floor[r-1][c]` otherwise; every kind that
`getProblematicTiles` flags among the kinds returned by `getCandidateTiles(r, c)` equals
the kind of a neighbour cell that exists; and at `(0, 0)` `getProblematicTiles` returns
the empty list for every floor state. -/
theorem neighbours_sentinel (fl : Floor) (r : Fin ROWS) (c : Fin COLUMNS) :
    ((c : Nat) = 0 → getLeftTile fl ((r : Nat) : Int) ((c : Nat) : Int) = some Z) ∧
    (∀ c0 : Fin COLUMNS, (c0 : Nat) + 1 = (c : Nat) →
      getLeftTile fl ((r : Nat) : Int) ((c : Nat) : Int) = some (fl r c0)) ∧
    ((r : Nat) = 0 → getAboveTile fl ((r : Nat) : Int) ((c : Nat) : Int) = some Z) ∧
    (∀ r0 : Fin ROWS, (r0 : Nat) + 1 = (r : Nat) →
      getAboveTile fl ((r : Nat) : Int) ((c : Nat) : Int) = some (fl r0 c)) ∧
    (∃ cands prob, getCandidateTiles fl ((r : Nat) : Int) ((c : Nat) : Int) = some cands ∧
      getProblematicTiles fl cands ((r : Nat) : Int) ((c : Nat) : Int) = some prob ∧
      ∀ k ∈ prob, k ∈ cands ∧
        ((∃ c0 : Fin COLUMNS, (c0 : Nat) + 1 = (c : Nat) ∧ k = fl r c0) ∨
         (∃ r0 : Fin ROWS, (r0 : Nat) + 1 = (r : Nat) ∧ k = fl r0 c))) ∧
    (∃ cands, getCandidateTiles fl 0 0 = some cands ∧
      getProblematicTiles fl cands 0 0 = some []) := by
  have hleft0 : (c : Nat) = 0 →
      getLeftTile fl ((r : Nat) : Int) ((c : Nat) : Int) = some Z := by
    intro h
    rw [h]
    exact getLeftTile_first fl _
  have habove0 : (r : Nat) = 0 →
      getAboveTile fl ((r : Nat) : Int) ((c : Nat) : Int) = some Z := by
    intro h
    rw [h]
    exact getAboveTile_first fl _
  refine ⟨hleft0, fun c0 h => getLeftTile_cell fl r c c0 h, habove0,
    fun r0 h => getAboveTile_cell fl r r0 c h, ?_, ?_⟩
  · obtain ⟨l, hl⟩ := getLeftTile_total fl ((r : Nat) : Int) ((c : Nat) : Int)
    obtain ⟨a, ha⟩ := getAboveTile_total fl ((r : Nat) : Int) ((c : Nat) : Int)
    refine ⟨_, _, getCandidateTiles_eq fl _ _, getProblematicTiles_eq fl _ _ _ l a hl ha, ?_⟩
    intro k hk
    obtain ⟨hcand, hrep⟩ := List.mem_filter.1 hk
    have hkz := candidates_ne_Z fl _ _ k hcand
    refine ⟨hcand, ?_⟩
    simp only [repeats, Bool.or_eq_true, decide_eq_true_eq] at hrep
    rcases hrep with hkl | hka
    · left
      by_cases hc0 : (c : Nat) = 0
      · rw [hleft0 hc0] at hl
        injection hl with hl
        exact absurd (hkl.trans hl.symm) hkz
      · have hlt := c.isLt
        refine ⟨⟨(c : Nat) - 1, by omega⟩, by simp only []; omega, ?_⟩
        rw [getLeftTile_cell fl r c ⟨(c : Nat) - 1, by omega⟩ (by simp only []; omega)] at hl
        injection hl with hl
        rw [hkl, ← hl]
    · right
      by_cases hr0 : (r : Nat) = 0
      · rw [habove0 hr0] at ha
        injection ha with ha
        exact absurd (hka.trans ha.symm) hkz
      · have hlt := r.isLt
        refine ⟨⟨(r : Nat) - 1, by omega⟩, by simp only []; omega, ?_⟩
        rw [getAboveTile_cell fl r ⟨(r : Nat) - 1, by omega⟩ c (by simp only []; omega)] at ha
        injection ha with ha
        rw [hka, ← ha]
  · refine ⟨_, getCandidateTiles_eq fl 0 0, ?_⟩
    rw [getProblematicTiles_eq fl _ 0 0 Z Z (getLeftTile_first fl 0) (getAboveTile_first fl 0)]
    congr 1
    rw [List.filter_eq_nil_iff]
    intro k hk
    have := candidates_ne_Z fl 0 0 k hk
    simp [repeats, this]

/-- Witness for `neighbours_sentinel`: the cell `(0, 0)` has no neighbour on either side;
on the floor whose only laid cell is a `B` at `(0, 0)`, that cell is the left neighbour of
`(0, 1)` and the above neighbour of `(1, 0)`. -/
theorem neighbours_sentinel_witness :
    getLeftTile emptyFloor ((0 : Nat) : Int) ((0 : Nat) : Int) = some Z ∧
    getAboveTile emptyFloor ((0 : Nat) : Int) ((0 : Nat) : Int) = some Z ∧
    getLeftTile originLaid.floor ((0 : Nat) : Int) ((1 : Nat) : Int) = some B ∧
    getAboveTile originLaid.floor ((1 : Nat) : Int) ((0 : Nat) : Int) = some B :=
  ⟨(neighbours_sentinel emptyFloor ⟨0, by decide⟩ ⟨0, by decide⟩).1 rfl,
   (neighbours_sentinel emptyFloor ⟨0, by decide⟩ ⟨0, by decide⟩).2.2.1 rfl,
   (neighbours_sentinel originLaid.floor ⟨0, by decide⟩ ⟨1, by decide⟩).2.1
      ⟨0, by decide⟩ rfl,
   (neighbours_sentinel originLaid.floor ⟨1, by decide⟩ ⟨0, by decide⟩).2.2.2.1
      ⟨0, by decide⟩ rfl⟩

/-- C13 (`canLayTile` definition and guard). For all integers `row`, `column` and every
floor state: `isWithinFloor` is true iff `0 ≤ row < ROWS` and `0 ≤ column < COLUMNS`;
`canLayTile` returns, and returns true iff `isWithinFloor` holds and `floor[row][column]`
is `Z`; for out-of-bounds coordinates it returns false whatever the floor, although the
read `floor[row][column]` (made by `isTileLaid`) would panic there: the floor is not read. -/
theorem canLayTile_guarded (fl : Floor) (row column : Int) :
    (isWithinFloor row column = true ↔
      0 ≤ row ∧ row < (ROWS : Int) ∧ 0 ≤ column ∧ column < (COLUMNS : Int)) ∧
    (∃ b, canLayTile fl row column = some b) ∧
    (canLayTile fl row column = some true ↔
      isWithinFloor row column = true ∧ index fl row column = some Z) ∧
    (isWithinFloor row column = false →
      index fl row column = none ∧ isTileLaid fl row column = none ∧
      ∀ fl2 : Floor, canLayTile fl2 row column = some false) := by
  refine ⟨isWithinFloor_iff row column, ⟨_, canLayTile_eq fl row column⟩, ?_, ?_⟩
  · rw [canLayTile_eq]
    constructor
    · intro h
      injection h with h
      exact ⟨(isWithinFloor_iff row column).2 (isFree_within fl row column h),
        by simpa [isFree] using h⟩
    · rintro ⟨_, h⟩
      simp [isFree, h]
  · intro h
    have hn : ¬ (0 ≤ row ∧ row < (ROWS : Int) ∧ 0 ≤ column ∧ column < (COLUMNS : Int)) := by
      rw [← isWithinFloor_iff, h]
      exact Bool.false_ne_true
    refine ⟨index_of_not_within fl row column hn, ?_, ?_⟩
    · simp [isTileLaid, index_of_not_within fl row column hn]
    · intro fl2
      simp [canLayTile, h]

/-- Witness for `canLayTile_guarded`: the coordinates `(0, 60)` are outside the floor. -/
theorem canLayTile_guarded_witness :
    index emptyFloor 0 60 = none ∧ isTileLaid emptyFloor 0 60 = none ∧
      ∀ fl2 : Floor, canLayTile fl2 0 60 = some false :=
  (canLayTile_guarded emptyFloor 0 60).2.2.2 rfl

/-- C18 (one-directional adjacency rule). For every candidate list and cell,
`getProblematicTiles` returns exactly the candidates, in order, that equal the value of
`getLeftTile` or of `getAboveTile`; and its result is the same on any two floor states
that agree on `floor[r][c-1]` and `floor[r-1][c]`, so it does not depend on any other
cell. -/
theorem getProblematicTiles_left_above (cands : List tile) (row column : Int) :
    (∀ fl : Floor, ∃ l a, getLeftTile fl row column = some l ∧
      getAboveTile fl row column = some a ∧
      getProblematicTiles fl cands row column
        = some (cands.filter (fun k => decide (k = l ∨ k = a)))) ∧
    (∀ fl1 fl2 : Floor, index fl1 row (column - 1) = index fl2 row (column - 1) →
      index fl1 (row - 1) column = index fl2 (row - 1) column →
      getProblematicTiles fl1 cands row column = getProblematicTiles fl2 cands row column) := by
  constructor
  · intro fl
    obtain ⟨l, hl⟩ := getLeftTile_total fl row column
    obtain ⟨a, ha⟩ := getAboveTile_total fl row column
    refine ⟨l, a, hl, ha, ?_⟩
    rw [getProblematicTiles_eq fl cands row column l a hl ha]
    congr 1
    apply List.filter_congr
    intro k _
    simp [repeats]
  · intro fl1 fl2 hleft habove
    obtain ⟨l, hl⟩ := getLeftTile_total fl1 row column
    obtain ⟨a, ha⟩ := getAboveTile_total fl1 row column
    have hl2 : getLeftTile fl2 row column = some l := by
      rw [← hl]
      simp only [getLeftTile, hleft]
    have ha2 : getAboveTile fl2 row column = some a := by
      rw [← ha]
      simp only [getAboveTile, habove]
    rw [getProblematicTiles_eq fl1 cands row column l a hl ha,
      getProblematicTiles_eq fl2 cands row column l a hl2 ha2]

/-- Witness for `getProblematicTiles_left_above`: at `(1, 1)` the all-unlaid floor and the
floor with a `B` at `(0, 0)` (a diagonal neighbour) agree on the left and above cells. -/
theorem getProblematicTiles_left_above_witness :
    getProblematicTiles emptyFloor [A, B, C, D] 1 1
      = getProblematicTiles originLaid.floor [A, B, C, D] 1 1 :=
  (getProblematicTiles_left_above [A, B, C, D] 1 1).2 emptyFloor originLaid.floor rfl rfl

/-- C16 (skip exactly the covered cells). For every state of the globals and in-bounds
cell `(r, c)`: `getCandidateTiles(r, c)` is empty iff `floor[r][c]` is laid; when the cell
is laid the scan step leaves the globals unchanged; when it is unlaid the step makes one
`layTile` call, with origin `(r, c)` and a kind other than `Z`, which writes that kind
over its footprint (so at `(r, c)`) and increments its count. -/
theorem scanBody_skips_laid (rnd : Nat → Nat) (w : World) (r : Fin ROWS) (c : Fin COLUMNS) :
    (getCandidateTiles w.floor ((r : Nat) : Int) ((c : Nat) : Int) = some [] ↔
      w.floor r c ≠ Z) ∧
    (w.floor r c ≠ Z →
      chooseTile rnd ((r : Nat) : Int) ((c : Nat) : Int) w = .skip ∧
      scanBody rnd ((r : Nat) : Int) ((c : Nat) : Int) w = .ok w) ∧
    (w.floor r c = Z → ∃ t, t ≠ Z ∧
      chooseTile rnd ((r : Nat) : Int) ((c : Nat) : Int) w
        = .place t { w with drawn := w.drawn + 1 } ∧
      scanBody rnd ((r : Nat) : Int) ((c : Nat) : Int) w
        = layTile ((r : Nat) : Int) ((c : Nat) : Int) t { w with drawn := w.drawn + 1 } ∧
      layTile ((r : Nat) : Int) ((c : Nat) : Int) t { w with drawn := w.drawn + 1 }
        = .ok { floor := paint w.floor t (footprint t ((r : Nat) : Int) ((c : Nat) : Int)),
                tileCounts := bump w.tileCounts t, drawn := w.drawn + 1 } ∧
      paint w.floor t (footprint t ((r : Nat) : Int) ((c : Nat) : Int)) r c = t) := by
  have hfree := isFree_cell w.floor r c
  refine ⟨?_, ?_, ?_⟩
  · rw [getCandidateTiles_eq]
    constructor
    · intro h
      injection h with h
      rw [candidates_eq_nil_iff, hfree] at h
      exact of_decide_eq_false h
    · intro h
      congr 1
      rw [candidates_eq_nil_iff, hfree]
      exact decide_eq_false h
  · intro h
    rcases scanBody_cases rnd ((r : Nat) : Int) ((c : Nat) : Int) w with
      ⟨_, hc, hs⟩ | ⟨hf, _⟩
    · exact ⟨hc, hs⟩
    · rw [hfree] at hf
      exact absurd (of_decide_eq_true hf) h
  · intro h
    rcases scanBody_cases rnd ((r : Nat) : Int) ((c : Nat) : Int) w with
      ⟨hf, _, _⟩ | ⟨_, t, htz, hfit, hc, hs⟩
    · rw [hfree, h] at hf
      exact absurd hf (by decide)
    · refine ⟨t, htz, hc, by simp [scanBody, hc], ?_, ?_⟩
      · exact layTile_of_within _ _ t _ (fits_within w.floor t _ _ hfit)
      · rw [paint_apply, if_pos (origin_mem_footprint t _ _ htz)]

/-- Witness for `scanBody_skips_laid`: the cell `(0, 0)` is laid in the floor with a `B`
there, and unlaid in the all-unlaid floor. -/
theorem scanBody_skips_laid_witness :
    (chooseTile (fun _ => 0) ((0 : Nat) : Int) ((0 : Nat) : Int) originLaid = .skip ∧
      scanBody (fun _ => 0) ((0 : Nat) : Int) ((0 : Nat) : Int) originLaid = .ok originLaid) ∧
    (∃ t, t ≠ Z ∧
      chooseTile (fun _ => 0) ((0 : Nat) : Int) ((0 : Nat) : Int) initialWorld
        = .place t { initialWorld with drawn := initialWorld.drawn + 1 } ∧
      scanBody (fun _ => 0) ((0 : Nat) : Int) ((0 : Nat) : Int) initialWorld
        = layTile ((0 : Nat) : Int) ((0 : Nat) : Int) t
            { initialWorld with drawn := initialWorld.drawn + 1 } ∧
      layTile ((0 : Nat) : Int) ((0 : Nat) : Int) t
          { initialWorld with drawn := initialWorld.drawn + 1 }
        = .ok { floor := paint initialWorld.floor t
                  (footprint t ((0 : Nat) : Int) ((0 : Nat) : Int)),
                tileCounts := bump initialWorld.tileCounts t,
                drawn := initialWorld.drawn + 1 } ∧
      paint initialWorld.floor t (footprint t ((0 : Nat) : Int) ((0 : Nat) : Int))
        ⟨0, by decide⟩ ⟨0, by decide⟩ = t) :=
  ⟨(scanBody_skips_laid (fun _ => 0) originLaid ⟨0, by decide⟩ ⟨0, by decide⟩).2.1
      (by decide),
   (scanBody_skips_laid (fun _ => 0) initialWorld ⟨0, by decide⟩ ⟨0, by decide⟩).2.2 rfl⟩

/-- C17 (the choice is among the surviving candidates). At a placing scan step (the list
`cands` of `getCandidateTiles` is non-empty), with `prob` the list of
`getProblematicTiles`: the surviving list is `cands` without the members of `prob`, in
the order of `cands`, when some candidate is not problematic, and all of `cands`
otherwise; it is not empty; the kind passed to `layTile` is the element of that list at
the index returned by `rand.Intn`; and every element of the list is the one placed for
some value returned by `rand.Intn`. -/
theorem chooseTile_among_survivors (w : World) (row column : Int) (cands prob : List tile)
    (hc : getCandidateTiles w.floor row column = some cands) (hne : cands ≠ [])
    (hp : getProblematicTiles w.floor cands row column = some prob) :
    ∃ sv, sv = (if cands.length > prob.length
                then cands.filter (fun k => decide (k ∉ prob)) else cands) ∧
      survivors w.floor cands row column = some sv ∧
      (cands.length > prob.length ↔ ∃ k ∈ cands, k ∉ prob) ∧
      sv.Sublist cands ∧ sv ≠ [] ∧
      (∀ rnd : Nat → Nat, ∃ t, sv[rnd w.drawn % sv.length]? = some t ∧ t ∈ sv ∧
        chooseTile rnd row column w = .place t { w with drawn := w.drawn + 1 } ∧
        scanBody rnd row column w = layTile row column t { w with drawn := w.drawn + 1 }) ∧
      (∀ t ∈ sv, ∃ v, v < sv.length ∧ ∀ rnd : Nat → Nat, rnd w.drawn % sv.length = v →
        chooseTile rnd row column w = .place t { w with drawn := w.drawn + 1 }) := by
  have hsv : survivors w.floor cands row column
      = some (if cands.length > prob.length
              then cands.filter (fun k => decide (k ∉ prob)) else cands) := by
    simp only [survivors, hp, Option.pure_def, Option.bind_eq_bind, Option.some_bind,
      removeProblematicTiles_eq]
    split <;> rfl
  obtain ⟨hsne, _⟩ := survivors_ne_nil w.floor cands row column _ hne hsv
  generalize hdef : (if cands.length > prob.length
      then cands.filter (fun k => decide (k ∉ prob)) else cands) = sv at hsv hsne
  have hlen : cands.length ≠ 0 := fun h0 => hne (List.length_eq_zero.1 h0)
  have hpos : 0 < sv.length := List.length_pos.2 hsne
  have hsl : sv.length ≠ 0 := by omega
  have hchoose : ∀ (rnd : Nat → Nat) (t : tile), sv[rnd w.drawn % sv.length]? = some t →
      chooseTile rnd row column w = .place t { w with drawn := w.drawn + 1 } := by
    intro rnd t ht
    simp [chooseTile, hc, hlen, hsv, Intn, hsl, ht]
  refine ⟨sv, rfl, hsv, ?_, ?_, hsne, ?_, ?_⟩
  · obtain ⟨l, hl⟩ := getLeftTile_total w.floor row column
    obtain ⟨a, ha⟩ := getAboveTile_total w.floor row column
    rw [getProblematicTiles_eq w.floor cands row column l a hl ha] at hp
    injection hp with hp
    rw [← hp, gt_iff_lt, List.length_filter_lt_length_iff_exists]
    constructor
    · rintro ⟨k, hk, hnk⟩
      exact ⟨k, hk, fun hmem => hnk (List.mem_filter.1 hmem).2⟩
    · rintro ⟨k, hk, hnk⟩
      exact ⟨k, hk, fun hrep => hnk (List.mem_filter.2 ⟨hk, hrep⟩)⟩
  · rw [← hdef]
    split
    · exact List.filter_sublist _
    · exact List.Sublist.refl _
  · intro rnd
    have hlt : rnd w.drawn % sv.length < sv.length := Nat.mod_lt _ hpos
    have hget : sv[rnd w.drawn % sv.length]? = some sv[rnd w.drawn % sv.length] :=
      List.getElem?_eq_getElem hlt
    have hch := hchoose rnd _ hget
    exact ⟨_, hget, List.getElem_mem _, hch, by simp [scanBody, hch]⟩
  · intro t ht
    obtain ⟨v, hv, hvt⟩ := List.getElem_of_mem ht
    refine ⟨v, hv, ?_⟩
    intro rnd hr
    apply hchoose
    rw [hr, List.getElem?_eq_getElem hv, hvt]

/-- Witness for `chooseTile_among_survivors`: at `(0, 1)` of the floor with a `B` at
`(0, 0)`, the candidates are `A, B, C, D`, `B` is problematic, and `A, C, D` survive. -/
theorem chooseTile_among_survivors_witness :
    ∃ sv, sv = (if [A, B, C, D].length > [B].length
                then [A, B, C, D].filter (fun k => decide (k ∉ [B])) else [A, B, C, D]) ∧
      survivors originLaid.floor [A, B, C, D] 0 1 = some sv ∧
      ([A, B, C, D].length > [B].length ↔ ∃ k ∈ [A, B, C, D], k ∉ [B]) ∧
      sv.Sublist [A, B, C, D] ∧ sv ≠ [] ∧
      (∀ rnd : Nat → Nat, ∃ t, sv[rnd originLaid.drawn % sv.length]? = some t ∧ t ∈ sv ∧
        chooseTile rnd 0 1 originLaid
          = .place t { originLaid with drawn := originLaid.drawn + 1 } ∧
        scanBody rnd 0 1 originLaid
          = layTile 0 1 t { originLaid with drawn := originLaid.drawn + 1 }) ∧
      (∀ t ∈ sv, ∃ v, v < sv.length ∧
        ∀ rnd : Nat → Nat, rnd originLaid.drawn % sv.length = v →
        chooseTile rnd 0 1 originLaid
          = .place t { originLaid with drawn := originLaid.drawn + 1 }) :=
  chooseTile_among_survivors originLaid 0 1 [A, B, C, D] [B] rfl (by decide) rfl

/-! ## A fully laid floor -/

theorem isFree_of_all_laid (fl : Floor) (h : ∀ r c, fl r c ≠ Z) (row column : Int) :
    isFree fl row column = false := by
  by_cases hw : 0 ≤ row ∧ row < (ROWS : Int) ∧ 0 ≤ column ∧ column < (COLUMNS : Int)
  · simp [isFree, index_of_within fl row column hw, h]
  · simp [isFree, index_of_not_within fl row column hw]

theorem runSteps_of_all_laid (rnd : Nat → Nat) (w : World) (h : ∀ r c, w.floor r c ≠ Z)
    (n : Nat) : runSteps rnd w n = .ok w := by
  induction n with
  | zero => rfl
  | succ n ih =>
    rw [runSteps_succ rnd w w n ih]
    rcases scanBody_cases rnd ((n / COLUMNS : Nat) : Int) ((n % COLUMNS : Nat) : Int) w with
      ⟨_, _, hs⟩ | ⟨hf, _⟩
    · exact hs
    · rw [isFree_of_all_laid w.floor h] at hf
      exact absurd hf (by decide)

/-- C20 (idempotence on the shared globals). If every cell of the floor is laid,
`makePattern` returns with the floor, `tileCounts` and the number of random draws consumed
all unchanged; consequently a second `makePattern`, with any random draws, after a
completed run from any initial globals leaves the result of the first run unchanged. -/
theorem makePattern_idempotent :
    (∀ (rnd : Nat → Nat) (w : World), (∀ r c, w.floor r c ≠ Z) →
      makePattern rnd w = .ok w) ∧
    (∀ (rnd rnd2 : Nat → Nat) (w0 : World),
      ∃ w, makePattern rnd w0 = .ok w ∧ makePattern rnd2 w = .ok w) := by
  constructor
  · intro rnd w h
    rw [makePattern_eq_runSteps]
    exact runSteps_of_all_laid rnd w h _
  · intro rnd rnd2 w0
    obtain ⟨w, hw⟩ := runSteps_ok rnd w0 (ROWS * COLUMNS)
    refine ⟨w, by rw [makePattern_eq_runSteps, hw], ?_⟩
    rw [makePattern_eq_runSteps]
    exact runSteps_of_all_laid rnd2 w
      (fun r c => runSteps_laid_before rnd w0 _ w hw r c (cell_index_lt r c)) _

/-- Witness for `makePattern_idempotent`: the floor whose cells are all `A`. -/
theorem makePattern_idempotent_witness :
    makePattern (fun _ => 0) allLaid = .ok allLaid :=
  makePattern_idempotent.1 (fun _ => 0) allLaid (fun _ _ => tile.noConfusion)

/-- C15 (termination and scan order). For every initial state of the globals and every
sequence of random draws, `makePattern` returns, after exactly `ROWS * COLUMNS`
iterations of the loop body; iteration `n` scans the in-bounds cell
`(n / COLUMNS, n % COLUMNS)`, every cell is scanned by exactly one iteration, and the
iterations come in row-major order; the number of placements is at most
`ROWS * COLUMNS`, and it is smaller in the run from the initial globals whose draws are
all zero. -/
theorem makePattern_terminates_row_major (rnd : Nat → Nat) (w : World) :
    (∃ wf, makePattern rnd w = .ok wf) ∧
    makePattern rnd w = runSteps rnd w (ROWS * COLUMNS) ∧
    (∀ (n : Nat) (w1 : World), runSteps rnd w n = .ok w1 →
      runSteps rnd w (n + 1)
        = scanBody rnd ((n / COLUMNS : Nat) : Int) ((n % COLUMNS : Nat) : Int) w1) ∧
    (∀ n, n < ROWS * COLUMNS → n / COLUMNS < ROWS ∧ n % COLUMNS < COLUMNS) ∧
    (∀ (r : Fin ROWS) (c : Fin COLUMNS),
      ∃! n, n < ROWS * COLUMNS ∧ n / COLUMNS = (r : Nat) ∧ n % COLUMNS = (c : Nat)) ∧
    (∀ n m : Nat, n < m ↔
      (n / COLUMNS < m / COLUMNS ∨ (n / COLUMNS = m / COLUMNS ∧ n % COLUMNS < m % COLUMNS))) ∧
    placements rnd w (ROWS * COLUMNS) ≤ ROWS * COLUMNS ∧
    placements (fun _ => 0) initialWorld (ROWS * COLUMNS) < ROWS * COLUMNS := by
  refine ⟨makePattern_ok rnd w, makePattern_eq_runSteps rnd w,
    fun n w1 h => runSteps_succ rnd w w1 n h,
    fun n h => ⟨div_lt_rows n h, mod_lt_columns n h⟩, ?_, ?_, ?_, ?_⟩
  · intro r c
    have hr := r.isLt
    have hc := c.isLt
    simp only [ROWS, COLUMNS] at hr hc ⊢
    refine ⟨(r : Nat) * 60 + (c : Nat), ⟨by omega, by omega, by omega⟩, ?_⟩
    rintro m ⟨_, h2, h3⟩
    omega
  · intro n m
    simp only [COLUMNS]
    omega
  · unfold placements
    calc ((List.range (ROWS * COLUMNS)).filter (placedAt rnd w)).length
        ≤ (List.range (ROWS * COLUMNS)).length := List.length_filter_le _ _
      _ = ROWS * COLUMNS := List.length_range _
  · unfold placements
    have hlt : ((List.range (ROWS * COLUMNS)).filter (placedAt (fun _ => 0) initialWorld)).length
        < (List.range (ROWS * COLUMNS)).length := by
      rw [List.length_filter_lt_length_iff_exists]
      refine ⟨2, List.mem_range.2 (by decide), ?_⟩
      have h2 : placedAt (fun _ => 0) initialWorld 2 = false := rfl
      simp [h2]
    rwa [List.length_range] at hlt

/-- Witness for `makePattern_terminates_row_major`: the first iteration of the run from
the initial globals scans the cell `(0, 0)`. -/
theorem makePattern_terminates_row_major_witness :
    runSteps (fun _ => 0) initialWorld (0 + 1)
        = scanBody (fun _ => 0) ((0 / COLUMNS : Nat) : Int) ((0 % COLUMNS : Nat) : Int)
            initialWorld ∧
    (0 / COLUMNS < ROWS ∧ 0 % COLUMNS < COLUMNS) :=
  ⟨(makePattern_terminates_row_major (fun _ => 0) initialWorld).2.2.1 0 initialWorld rfl,
   (makePattern_terminates_row_major (fun _ => 0) initialWorld).2.2.2.1 0 (by decide)⟩

/-! ## Two runs in lockstep -/

theorem survivors_length_le (fl : Floor) (row column : Int) (sv : List tile)
    (h : survivors fl ([A, B, C, D].filter (fun k => fits fl k row column)) row column
      = some sv) : sv.length ≤ 4 := by
  obtain ⟨l, hl⟩ := getLeftTile_total fl row column
  obtain ⟨a, ha⟩ := getAboveTile_total fl row column
  rw [survivors_eq fl _ row column l a hl ha] at h
  injection h with h
  have hc : ([A, B, C, D].filter (fun k => fits fl k row column)).length ≤ 4 :=
    List.length_filter_le _ _
  rw [← h]
  split
  · exact hc
  · exact le_trans (List.length_filter_le _ _) hc

/-- One iteration of the loop body run on two states with the same floor, with random
sources that return the same value at the next call: both return, the floors stay equal,
and either neither state changes or both consume one draw and count the same kind. -/
theorem scanBody_lockstep (rnd1 rnd2 : Nat → Nat) (row column : Int) (w1 w2 : World)
    (hfl : w1.floor = w2.floor)
    (hd : ∀ n, 0 < n → n ≤ 4 → rnd1 w1.drawn % n = rnd2 w2.drawn % n) :
    ∃ v1 v2, scanBody rnd1 row column w1 = .ok v1 ∧ scanBody rnd2 row column w2 = .ok v2 ∧
      v1.floor = v2.floor ∧
      ((v1.drawn = w1.drawn ∧ v2.drawn = w2.drawn ∧
          v1.tileCounts = w1.tileCounts ∧ v2.tileCounts = w2.tileCounts) ∨
       (v1.drawn = w1.drawn + 1 ∧ v2.drawn = w2.drawn + 1 ∧
          ∃ t, v1.tileCounts = bump w1.tileCounts t ∧
            v2.tileCounts = bump w2.tileCounts t)) := by
  rcases chooseTile_cases rnd1 row column w1 with
    ⟨hf1, hc1⟩ | ⟨hf1, sv1, t1, hsv1, hne1, hget1, _, _, hc1⟩
  · rcases chooseTile_cases rnd2 row column w2 with ⟨_, hc2⟩ | ⟨hf2, _⟩
    · refine ⟨w1, w2, by simp [scanBody, hc1], by simp [scanBody, hc2], hfl, ?_⟩
      left
      exact ⟨rfl, rfl, rfl, rfl⟩
    · rw [hfl, hf2] at hf1
      exact absurd hf1 (by decide)
  · rcases chooseTile_cases rnd2 row column w2 with
      ⟨hf2, _⟩ | ⟨_, sv2, t2, hsv2, _, hget2, _, _, hc2⟩
    · rw [hfl, hf2] at hf1
      exact absurd hf1 (by decide)
    · rw [hfl, hsv2] at hsv1
      injection hsv1 with hsv1
      subst hsv1
      have hlen := survivors_length_le w2.floor row column sv2 hsv2
      have hpos : 0 < sv2.length := List.length_pos.2 hne1
      rw [hd sv2.length hpos hlen, hget2] at hget1
      injection hget1 with ht
      subst ht
      obtain ⟨_, _, _, _, hs1⟩ := chooseTile_place rnd1 row column w1 _ t2 hc1
      obtain ⟨_, _, _, _, hs2⟩ := chooseTile_place rnd2 row column w2 _ t2 hc2
      refine ⟨_, _, hs1, hs2, ?_, ?_⟩
      · show paint w1.floor t2 _ = paint w2.floor t2 _
        rw [hfl]
      · right
        exact ⟨rfl, rfl, t2, rfl, rfl⟩

theorem runSteps_lockstep (rnd1 rnd2 : Nat → Nat) (w1 w2 : World)
    (hfl : w1.floor = w2.floor)
    (hd : ∀ i n, 0 < n → n ≤ 4 → rnd1 (w1.drawn + i) % n = rnd2 (w2.drawn + i) % n)
    (k : Nat) :
    ∃ v1 v2 j, runSteps rnd1 w1 k = .ok v1 ∧ runSteps rnd2 w2 k = .ok v2 ∧
      v1.floor = v2.floor ∧ v1.drawn = w1.drawn + j ∧ v2.drawn = w2.drawn + j ∧
      (w1.tileCounts = w2.tileCounts → v1.tileCounts = v2.tileCounts) := by
  induction k with
  | zero => exact ⟨w1, w2, 0, rfl, rfl, hfl, rfl, rfl, fun h => h⟩
  | succ k ih =>
    obtain ⟨v1, v2, j, h1, h2, hf, hd1, hd2, htc⟩ := ih
    have hnext : ∀ n, 0 < n → n ≤ 4 → rnd1 v1.drawn % n = rnd2 v2.drawn % n := by
      intro n hn0 hn4
      rw [hd1, hd2]
      exact hd j n hn0 hn4
    obtain ⟨u1, u2, hs1, hs2, hfu, hcase⟩ :=
      scanBody_lockstep rnd1 rnd2 ((k / COLUMNS : Nat) : Int) ((k % COLUMNS : Nat) : Int)
        v1 v2 hf hnext
    rw [← runSteps_succ rnd1 w1 v1 k h1] at hs1
    rw [← runSteps_succ rnd2 w2 v2 k h2] at hs2
    rcases hcase with ⟨e1, e2, c1, c2⟩ | ⟨e1, e2, t, c1, c2⟩
    · exact ⟨u1, u2, j, hs1, hs2, hfu, by rw [e1, hd1], by rw [e2, hd2],
        fun h => by rw [c1, c2, htc h]⟩
    · exact ⟨u1, u2, j + 1, hs1, hs2, hfu, by rw [e1, hd1]; omega, by rw [e2, hd2]; omega,
        fun h => by rw [c1, c2, htc h]⟩

/-- C14 (determinism under a fixed random source). The final floor of `makePattern` is
determined by the initial floor and the values returned by `rand.Intn`: two runs from
states with the same floor whose random sources return the same values (for every
argument `1..4` that `rand.Intn` can receive) both return, with equal final floors, and
with equal `tileCounts` when the initial `tileCounts` are equal; in particular two runs
from the initial globals fed the same draws produce identical final globals. -/
theorem makePattern_deterministic :
    (∀ (rnd1 rnd2 : Nat → Nat) (w1 w2 : World), w1.floor = w2.floor →
      (∀ i n, 0 < n → n ≤ 4 → rnd1 (w1.drawn + i) % n = rnd2 (w2.drawn + i) % n) →
      ∃ v1 v2, makePattern rnd1 w1 = .ok v1 ∧ makePattern rnd2 w2 = .ok v2 ∧
        v1.floor = v2.floor ∧
        (w1.tileCounts = w2.tileCounts → v1.tileCounts = v2.tileCounts)) ∧
    (∀ (rnd1 rnd2 : Nat → Nat),
      (∀ i n, 0 < n → n ≤ 4 → rnd1 i % n = rnd2 i % n) →
      makePattern rnd1 initialWorld = makePattern rnd2 initialWorld) := by
  constructor
  · intro rnd1 rnd2 w1 w2 hfl hd
    obtain ⟨v1, v2, _, h1, h2, hf, _, _, htc⟩ :=
      runSteps_lockstep rnd1 rnd2 w1 w2 hfl hd (ROWS * COLUMNS)
    exact ⟨v1, v2, by rw [makePattern_eq_runSteps, h1], by rw [makePattern_eq_runSteps, h2],
      hf, htc⟩
  · intro rnd1 rnd2 hd
    obtain ⟨v1, v2, j, h1, h2, hf, hd1, hd2, htc⟩ :=
      runSteps_lockstep rnd1 rnd2 initialWorld initialWorld rfl
        (fun i n h0 h4 => hd _ n h0 h4) (ROWS * COLUMNS)
    rw [makePattern_eq_runSteps, makePattern_eq_runSteps, h1, h2]
    have htc2 := htc rfl
    have hdr : v1.drawn = v2.drawn := by rw [hd1, hd2]
    have heq : v1 = v2 := by
      cases v1
      cases v2
      simp only at hf htc2 hdr
      rw [hf, htc2, hdr]
    rw [heq]

/-- Witness for `makePattern_deterministic`: the draws `0, 0, ...` and `12, 12, ...` make
`rand.Intn` return `0` at every call, whatever its argument in `1..4`. -/
theorem makePattern_deterministic_witness :
    (∃ v1 v2, makePattern (fun _ => 0) initialWorld = .ok v1 ∧
      makePattern (fun _ => 12) { initialWorld with drawn := 7 } = .ok v2 ∧
      v1.floor = v2.floor ∧
      (initialWorld.tileCounts = initialWorld.tileCounts → v1.tileCounts = v2.tileCounts)) ∧
    makePattern (fun _ => 0) initialWorld = makePattern (fun _ => 12) initialWorld :=
  ⟨makePattern_deterministic.1 (fun _ => 0) (fun _ => 12) initialWorld
      { initialWorld with drawn := 7 } rfl (by
        intro i n h0 h4
        show 0 % n = 12 % n
        interval_cases n <;> decide),
   makePattern_deterministic.2 (fun _ => 0) (fun _ => 12) (by
      intro i n h0 h4
      show 0 % n = 12 % n
      interval_cases n <;> decide)⟩

/-! ## The scan front -/

theorem next_cell (n : Nat) :
    (n % COLUMNS + 1 < COLUMNS ∧ (n + 1) / COLUMNS = n / COLUMNS ∧
      (n + 1) % COLUMNS = n % COLUMNS + 1) ∨
    (n % COLUMNS + 1 = COLUMNS ∧ (n + 1) / COLUMNS = n / COLUMNS + 1 ∧
      (n + 1) % COLUMNS = 0) := by
  unfold COLUMNS
  omega

theorem cell_index_cases (r c n : Nat) (hc : c < COLUMNS) (h : r * COLUMNS + c < n + 1) :
    r * COLUMNS + c < n ∨ (r = n / COLUMNS ∧ c = n % COLUMNS) := by
  unfold COLUMNS at *
  omega

theorem footprint_rows (t : tile) (row column x y : Int)
    (h : (x, y) ∈ footprint t row column) : x ≤ row + 1 := by
  cases t <;> simp [footprint] at h <;> omega

theorem footprint_below_right (t : tile) (row column y : Int)
    (h : (row + 1, y) ∈ footprint t row column) (hy : column + 1 ≤ y) :
    y = column + 1 ∧ (row, column + 1) ∈ footprint t row column := by
  cases t <;> simp [footprint] at h ⊢ <;> omega

theorem scanFront_step (rnd : Nat → Nat) (n : Nat) (w w1 : World)
    (hinv : ScanFront n w.floor)
    (hs : scanBody rnd ((n / COLUMNS : Nat) : Int) ((n % COLUMNS : Nat) : Int) w = .ok w1) :
    ScanFront (n + 1) w1.floor := by
  obtain ⟨h1, h2, h3⟩ := hinv
  rcases scanBody_cases rnd ((n / COLUMNS : Nat) : Int) ((n % COLUMNS : Nat) : Int) w with
    ⟨hf, _, hs2⟩ | ⟨_, t, htz, _, _, hs2⟩
  · rw [hs2] at hs
    injection hs with hs
    subst hs
    refine ⟨?_, ?_, ?_⟩
    · intro r c hlt
      rcases cell_index_cases r c n c.isLt hlt with hlt2 | ⟨hr, hc⟩
      · exact h1 r c hlt2
      · have hfree := isFree_cell w.floor r c
        rw [hr, hc, hf] at hfree
        exact of_decide_eq_false hfree.symm
    · intro r c hr
      apply h2 r c
      rcases next_cell n with ⟨_, hd, _⟩ | ⟨_, hd, _⟩ <;> omega
    · intro r c hr hc hne
      exfalso
      rcases next_cell n with ⟨_, hd, hm⟩ | ⟨_, hd, hm⟩
      · have := (h3 r c (by omega) (by omega) hne).1
        omega
      · exact hne (h2 r c (by omega))
  · rw [hs2] at hs
    injection hs with hs
    subst hs
    have hval : ∀ (r : Fin ROWS) (c : Fin COLUMNS),
        paint w.floor t
            (footprint t ((n / COLUMNS : Nat) : Int) ((n % COLUMNS : Nat) : Int)) r c
          = if (((r : Nat) : Int), ((c : Nat) : Int))
                ∈ footprint t ((n / COLUMNS : Nat) : Int) ((n % COLUMNS : Nat) : Int)
            then t else w.floor r c := fun r c => paint_apply w.floor t _ r c
    refine ⟨?_, ?_, ?_⟩
    · intro r c hlt
      show paint w.floor t _ r c ≠ Z
      rw [hval]
      split
      · exact htz
      · rename_i hnot
        rcases cell_index_cases r c n c.isLt hlt with hlt2 | ⟨hr, hc⟩
        · exact h1 r c hlt2
        · exfalso
          apply hnot
          rw [hr, hc]
          exact origin_mem_footprint t _ _ htz
    · intro r c hr
      show paint w.floor t _ r c = Z
      rw [hval]
      have hnot : (((r : Nat) : Int), ((c : Nat) : Int))
          ∉ footprint t ((n / COLUMNS : Nat) : Int) ((n % COLUMNS : Nat) : Int) := by
        intro hmem
        have := footprint_rows t _ _ _ _ hmem
        rcases next_cell n with ⟨_, hd, _⟩ | ⟨_, hd, _⟩ <;> omega
      rw [if_neg hnot]
      apply h2 r c
      rcases next_cell n with ⟨_, hd, _⟩ | ⟨_, hd, _⟩ <;> omega
    · intro r c hr hc hne
      have hne2 : paint w.floor t
          (footprint t ((n / COLUMNS : Nat) : Int) ((n % COLUMNS : Nat) : Int)) r c ≠ Z := hne
      rw [hval] at hne2
      rcases next_cell n with ⟨_, hd, hm⟩ | ⟨_, hd, hm⟩
      · by_cases hmem : (((r : Nat) : Int), ((c : Nat) : Int))
            ∈ footprint t ((n / COLUMNS : Nat) : Int) ((n % COLUMNS : Nat) : Int)
        · have hrow : ((r : Nat) : Int) = ((n / COLUMNS : Nat) : Int) + 1 := by omega
          rw [hrow] at hmem
          obtain ⟨hy, hright⟩ := footprint_below_right t _ _ _ hmem (by omega)
          refine ⟨by omega, ?_⟩
          intro r0 hr0
          show paint w.floor t _ r0 c ≠ Z
          rw [hval]
          have hcell : (((r0 : Nat) : Int), ((c : Nat) : Int))
              = (((n / COLUMNS : Nat) : Int), ((n % COLUMNS : Nat) : Int) + 1) := by
            rw [hr0, hy, hd]
          rw [hcell, if_pos hright]
          exact htz
        · rw [if_neg hmem] at hne2
          have := (h3 r c (by omega) (by omega) hne2).1
          omega
      · exfalso
        have hnot : (((r : Nat) : Int), ((c : Nat) : Int))
            ∉ footprint t ((n / COLUMNS : Nat) : Int) ((n % COLUMNS : Nat) : Int) := by
          intro hmem
          have := footprint_rows t _ _ _ _ hmem
          omega
        rw [if_neg hnot] at hne2
        exact hne2 (h2 r c (by omega))

theorem scanFront_initial : ScanFront 0 emptyFloor := by
  refine ⟨?_, ?_, ?_⟩
  · intro r c h
    exact absurd h (Nat.not_lt_zero _)
  · intro r c _
    rfl
  · intro r c _ _ h
    exact absurd rfl h

theorem scanFront_runSteps (rnd : Nat → Nat) (n : Nat) (w : World)
    (h : runSteps rnd initialWorld n = .ok w) : ScanFront n w.floor := by
  induction n generalizing w with
  | zero =>
    injection h with h
    rw [← h]
    exact scanFront_initial
  | succ n ih =>
    obtain ⟨wn, hn⟩ := runSteps_ok rnd initialWorld n
    rw [runSteps_succ rnd initialWorld wn n hn] at h
    exact scanFront_step rnd n wn w (ih wn hn) h

/-- C19 (scan-front invariant). In a run of `makePattern` from the all-unlaid floor, when
iteration `n` reaches a cell `(r, c) = (n / COLUMNS, n % COLUMNS)` that is still unlaid:
every cell earlier in row-major order is laid, every cell in rows `≥ r + 2` is unlaid, and
if `r + 1 < ROWS` the cell `(r + 1, c)` directly below is unlaid; hence, in a row other
than the last, the step places a tile and both `A` and `C` are among its candidates. -/
theorem makePattern_scan_front (rnd : Nat → Nat) (n : Nat) (w : World)
    (hn : n < ROWS * COLUMNS) (hrun : runSteps rnd initialWorld n = .ok w)
    (hz : index w.floor ((n / COLUMNS : Nat) : Int) ((n % COLUMNS : Nat) : Int) = some Z) :
    (∀ (r : Fin ROWS) (c : Fin COLUMNS), (r : Nat) * COLUMNS + (c : Nat) < n →
      w.floor r c ≠ Z) ∧
    (∀ (r : Fin ROWS) (c : Fin COLUMNS), n / COLUMNS + 2 ≤ (r : Nat) → w.floor r c = Z) ∧
    (n / COLUMNS + 1 < ROWS →
      index w.floor (((n / COLUMNS : Nat) : Int) + 1) ((n % COLUMNS : Nat) : Int) = some Z) ∧
    (n / COLUMNS + 1 < ROWS →
      ∃ cands t w1,
        getCandidateTiles w.floor ((n / COLUMNS : Nat) : Int) ((n % COLUMNS : Nat) : Int)
          = some cands ∧
        A ∈ cands ∧ C ∈ cands ∧
        chooseTile rnd ((n / COLUMNS : Nat) : Int) ((n % COLUMNS : Nat) : Int) w
          = .place t w1) := by
  obtain ⟨h1, h2, h3⟩ := scanFront_runSteps rnd n w hrun
  have hcol := mod_lt_columns n hn
  have hrow := div_lt_rows n hn
  have hbelow : n / COLUMNS + 1 < ROWS →
      index w.floor (((n / COLUMNS : Nat) : Int) + 1) ((n % COLUMNS : Nat) : Int)
        = some Z := by
    intro hlast
    have hcast : (((n / COLUMNS : Nat) : Int) + 1)
        = (((⟨n / COLUMNS + 1, hlast⟩ : Fin ROWS) : Nat) : Int) := by
      push_cast
      rfl
    have hcast2 : ((n % COLUMNS : Nat) : Int)
        = (((⟨n % COLUMNS, hcol⟩ : Fin COLUMNS) : Nat) : Int) := rfl
    rw [hcast, hcast2, index_cell]
    congr 1
    by_contra hne
    have hcur := (h3 ⟨n / COLUMNS + 1, hlast⟩ ⟨n % COLUMNS, hcol⟩ rfl (le_refl _) hne).2
      ⟨n / COLUMNS, hrow⟩ rfl
    have hcell := index_cell w.floor ⟨n / COLUMNS, hrow⟩ ⟨n % COLUMNS, hcol⟩
    rw [hz] at hcell
    injection hcell with hcell
    exact hcur hcell.symm
  refine ⟨h1, h2, hbelow, ?_⟩
  intro hlast
  have hfree : isFree w.floor ((n / COLUMNS : Nat) : Int) ((n % COLUMNS : Nat) : Int)
      = true := decide_eq_true hz
  have hfree2 : isFree w.floor (((n / COLUMNS : Nat) : Int) + 1) ((n % COLUMNS : Nat) : Int)
      = true := decide_eq_true (hbelow hlast)
  have hA : fits w.floor A ((n / COLUMNS : Nat) : Int) ((n % COLUMNS : Nat) : Int) = true := by
    rw [fits_iff]
    intro p hp
    simp only [footprint, List.mem_singleton] at hp
    subst hp
    exact hfree
  have hC : fits w.floor C ((n / COLUMNS : Nat) : Int) ((n % COLUMNS : Nat) : Int) = true := by
    rw [fits_iff]
    intro p hp
    simp only [footprint, List.mem_cons, List.mem_singleton, List.not_mem_nil, or_false] at hp
    rcases hp with h | h
    · subst h
      exact hfree
    · subst h
      exact hfree2
  rcases chooseTile_cases rnd ((n / COLUMNS : Nat) : Int) ((n % COLUMNS : Nat) : Int) w with
    ⟨hf, _⟩ | ⟨_, _, t, _, _, _, _, _, hc⟩
  · rw [hfree] at hf
    exact absurd hf (by decide)
  · exact ⟨_, t, _, getCandidateTiles_eq w.floor _ _,
      List.mem_filter.2 ⟨by decide, hA⟩, List.mem_filter.2 ⟨by decide, hC⟩, hc⟩

/-- Witness for `makePattern_scan_front`: iteration 1 of the run whose draws are all zero
reaches the unlaid cell `(0, 1)`, after iteration 0 has laid `A` at `(0, 0)`. -/
theorem makePattern_scan_front_witness :
    (∀ (r : Fin ROWS) (c : Fin COLUMNS), (r : Nat) * COLUMNS + (c : Nat) < 1 →
      (runSteps (fun _ => 0) initialWorld 1).world.floor r c ≠ Z) ∧
    (∀ (r : Fin ROWS) (c : Fin COLUMNS), 1 / COLUMNS + 2 ≤ (r : Nat) →
      (runSteps (fun _ => 0) initialWorld 1).world.floor r c = Z) ∧
    (1 / COLUMNS + 1 < ROWS →
      index (runSteps (fun _ => 0) initialWorld 1).world.floor
        (((1 / COLUMNS : Nat) : Int) + 1) ((1 % COLUMNS : Nat) : Int) = some Z) ∧
    (1 / COLUMNS + 1 < ROWS →
      ∃ cands t w1,
        getCandidateTiles (runSteps (fun _ => 0) initialWorld 1).world.floor
          ((1 / COLUMNS : Nat) : Int) ((1 % COLUMNS : Nat) : Int) = some cands ∧
        A ∈ cands ∧ C ∈ cands ∧
        chooseTile (fun _ => 0) ((1 / COLUMNS : Nat) : Int) ((1 % COLUMNS : Nat) : Int)
          (runSteps (fun _ => 0) initialWorld 1).world = .place t w1) :=
  makePattern_scan_front (fun _ => 0) 1 (runSteps (fun _ => 0) initialWorld 1).world
    (by decide) rfl rfl

/-! ## The program for other floor sizes: lemmas -/

namespace Sized

variable {R K : Nat}

theorem isWithinFloor_iff_sized (row column : Int) :
    isWithinFloor R K row column = true ↔
      0 ≤ row ∧ row < (R : Int) ∧ 0 ≤ column ∧ column < (K : Int) := by
  simp [isWithinFloor, and_assoc]

theorem index_of_within_sized (fl : Floor R K) (row column : Int)
    (h : 0 ≤ row ∧ row < (R : Int) ∧ 0 ≤ column ∧ column < (K : Int)) :
    index fl row column = some (fl ⟨row.toNat, by omega⟩ ⟨column.toNat, by omega⟩) := by
  simp [index, h]

theorem index_of_not_within_sized (fl : Floor R K) (row column : Int)
    (h : ¬ (0 ≤ row ∧ row < (R : Int) ∧ 0 ≤ column ∧ column < (K : Int))) :
    index fl row column = none := by
  simp [index, h]

theorem isFree_within_sized (fl : Floor R K) (row column : Int) (h : isFree fl row column = true) :
    0 ≤ row ∧ row < (R : Int) ∧ 0 ≤ column ∧ column < (K : Int) := by
  by_contra hn
  simp [isFree, index_of_not_within_sized fl row column hn] at h

theorem canLayTile_eq_sized (fl : Floor R K) (row column : Int) :
    canLayTile fl row column = some (isFree fl row column) := by
  by_cases h : 0 ≤ row ∧ row < (R : Int) ∧ 0 ≤ column ∧ column < (K : Int)
  · have hw : isWithinFloor R K row column = true := (isWithinFloor_iff_sized row column).2 h
    simp [canLayTile, hw, isTileLaid, isFree, index_of_within_sized fl row column h]
  · have hw : isWithinFloor R K row column = false := by
      rw [← Bool.not_eq_true, isWithinFloor_iff_sized]; exact h
    simp [canLayTile, hw, isFree, index_of_not_within_sized fl row column h]

theorem getCandidateTiles_eq_sized (fl : Floor R K) (row column : Int) :
    getCandidateTiles fl row column
      = some ([A, B, C, D].filter (fun k => fits fl k row column)) := by
  simp only [getCandidateTiles, canLayTile_eq_sized, fits, footprint, List.filter, List.all_cons,
    List.all_nil, Bool.and_true]
  generalize isFree fl row column = b1
  generalize isFree fl row (column + 1) = b2
  generalize isFree fl (row + 1) column = b3
  generalize isFree fl (row + 1) (column + 1) = b4
  cases b1 <;> cases b2 <;> cases b3 <;> cases b4 <;> rfl

theorem getLeftTile_total_sized (fl : Floor R K) (row column : Int) :
    ∃ l, getLeftTile fl row column = some l := by
  by_cases h : isWithinFloor R K row (column - 1) = true
  · have hi := index_of_within_sized fl row (column - 1) ((isWithinFloor_iff_sized _ _).1 h)
    exact ⟨_, by simpa [getLeftTile, h] using hi⟩
  · exact ⟨Z, by simp [getLeftTile, h]⟩

theorem getAboveTile_total_sized (fl : Floor R K) (row column : Int) :
    ∃ a, getAboveTile fl row column = some a := by
  by_cases h : isWithinFloor R K (row - 1) column = true
  · have hi := index_of_within_sized fl (row - 1) column ((isWithinFloor_iff_sized _ _).1 h)
    exact ⟨_, by simpa [getAboveTile, h] using hi⟩
  · exact ⟨Z, by simp [getAboveTile, h]⟩

theorem getProblematicTiles_eq_sized (fl : Floor R K) (cands : List tile) (row column : Int)
    (l a : tile) (hl : getLeftTile fl row column = some l)
    (ha : getAboveTile fl row column = some a) :
    getProblematicTiles fl cands row column = some (cands.filter (repeats l a)) := by
  unfold getProblematicTiles
  suffices h : ∀ acc : List tile,
      cands.foldlM (fun problematicTiles candidateTile => do
        let l ← getLeftTile fl row column
        if candidateTile = l then
          return problematicTiles ++ [candidateTile]
        else
          let a ← getAboveTile fl row column
          if candidateTile = a then
            return problematicTiles ++ [candidateTile]
          else
            return problematicTiles) acc = some (acc ++ cands.filter (repeats l a)) by
    simpa using h []
  simp only [hl, ha, Option.pure_def, Option.bind_eq_bind, Option.some_bind]
  induction cands with
  | nil => intro acc; simp
  | cons k ks ih =>
    intro acc
    rw [List.foldlM_cons]
    by_cases h1 : k = l
    · simp [h1, ih, repeats, List.filter]
    · by_cases h2 : k = a
      · simp [h1, h2, ih, repeats, List.filter]
      · simp [h1, h2, ih, repeats, List.filter]

theorem survivors_eq_sized (fl : Floor R K) (cands : List tile) (row column : Int)
    (l a : tile) (hl : getLeftTile fl row column = some l)
    (ha : getAboveTile fl row column = some a) :
    survivors fl cands row column
      = some (if cands.filter (fun k => !repeats l a k) = [] then cands
              else cands.filter (fun k => !repeats l a k)) := by
  have hrem : removeProblematicTiles cands (cands.filter (repeats l a))
      = cands.filter (fun k => !repeats l a k) := by
    rw [removeProblematicTiles_eq]
    apply List.filter_congr
    intro k hk
    cases hr : repeats l a k <;> simp [List.mem_filter, hk, hr]
  simp only [survivors, getProblematicTiles_eq_sized fl cands row column l a hl ha,
    Option.pure_def, Option.bind_eq_bind, Option.some_bind, hrem]
  by_cases hall : cands.filter (fun k => !repeats l a k) = []
  · have hle : ¬ cands.length > (cands.filter (repeats l a)).length := by
      rw [gt_iff_lt, List.length_filter_lt_length_iff_exists]
      rintro ⟨x, hx, hnx⟩
      rw [List.filter_eq_nil_iff] at hall
      exact hall x hx (by simpa using hnx)
    simp [hall, hle]
  · have hlt : cands.length > (cands.filter (repeats l a)).length := by
      rw [gt_iff_lt, List.length_filter_lt_length_iff_exists]
      rw [List.filter_eq_nil_iff] at hall
      push_neg at hall
      obtain ⟨x, hx, hnx⟩ := hall
      exact ⟨x, hx, by simpa using hnx⟩
    simp [hall, hlt]

theorem survivors_ne_nil_sized (fl : Floor R K) (cands : List tile) (row column : Int)
    (sv : List tile) (hc : cands ≠ []) (h : survivors fl cands row column = some sv) :
    sv ≠ [] ∧ ∀ k ∈ sv, k ∈ cands := by
  obtain ⟨l, hl⟩ := getLeftTile_total_sized fl row column
  obtain ⟨a, ha⟩ := getAboveTile_total_sized fl row column
  rw [survivors_eq_sized fl cands row column l a hl ha] at h
  injection h with h
  subst h
  by_cases hall : cands.filter (fun k => !repeats l a k) = []
  · simp [hall, hc]
  · simp only [hall, if_false]
    exact ⟨hall, fun k hk => (List.mem_filter.1 hk).1⟩

theorem candidates_eq_nil_iff_sized (fl : Floor R K) (row column : Int) :
    [A, B, C, D].filter (fun k => fits fl k row column) = [] ↔ isFree fl row column = false := by
  simp only [fits, footprint, List.filter, List.all_cons, List.all_nil, Bool.and_true]
  generalize isFree fl row column = b1
  generalize isFree fl row (column + 1) = b2
  generalize isFree fl (row + 1) column = b3
  generalize isFree fl (row + 1) (column + 1) = b4
  cases b1 <;> cases b2 <;> cases b3 <;> cases b4 <;> simp

/-- The possible results of `chooseTile`: a laid (or non-existent) cell is skipped; at a
free cell a kind is chosen from the non-empty surviving list, one draw is consumed, and
nothing else changes. -/
theorem chooseTile_cases_sized (rnd : Nat → Nat) (row column : Int) (w : World R K) :
    (isFree w.floor row column = false ∧ chooseTile rnd row column w = .skip) ∨
    (isFree w.floor row column = true ∧
      ∃ sv t, survivors w.floor ([A, B, C, D].filter (fun k => fits w.floor k row column))
          row column = some sv ∧
        sv ≠ [] ∧ sv[rnd w.drawn % sv.length]? = some t ∧
        fits w.floor t row column = true ∧ t ≠ Z ∧
        chooseTile rnd row column w = .place t { w with drawn := w.drawn + 1 }) := by
  cases hf : isFree w.floor row column with
  | false =>
    left
    refine ⟨rfl, ?_⟩
    have hnil := (candidates_eq_nil_iff_sized w.floor row column).2 hf
    simp [chooseTile, getCandidateTiles_eq_sized, hnil]
  | true =>
    right
    refine ⟨rfl, ?_⟩
    have hne : [A, B, C, D].filter (fun k => fits w.floor k row column) ≠ [] := by
      intro hnil
      rw [candidates_eq_nil_iff_sized] at hnil
      rw [hf] at hnil
      exact Bool.noConfusion hnil
    obtain ⟨l, hl⟩ := getLeftTile_total_sized w.floor row column
    obtain ⟨a, ha⟩ := getAboveTile_total_sized w.floor row column
    have hsv := survivors_eq_sized w.floor
      ([A, B, C, D].filter (fun k => fits w.floor k row column)) row column l a hl ha
    obtain ⟨hsne, hsub⟩ := survivors_ne_nil_sized w.floor _ row column _ hne hsv
    generalize hsvdef : (if ([A, B, C, D].filter (fun k => fits w.floor k row column)).filter
        (fun k => !repeats l a k) = []
      then [A, B, C, D].filter (fun k => fits w.floor k row column)
      else ([A, B, C, D].filter (fun k => fits w.floor k row column)).filter
        (fun k => !repeats l a k)) = sv at hsv hsne hsub
    have hpos : 0 < sv.length := List.length_pos.2 hsne
    have hlt : rnd w.drawn % sv.length < sv.length := Nat.mod_lt _ hpos
    have hmem : sv[rnd w.drawn % sv.length] ∈ sv := List.getElem_mem _
    have hcand := hsub _ hmem
    have hfit : fits w.floor sv[rnd w.drawn % sv.length] row column = true :=
      (List.mem_filter.1 hcand).2
    have htz : sv[rnd w.drawn % sv.length] ≠ Z := by
      intro hz
      rw [hz] at hcand
      simp at hcand
    refine ⟨sv, sv[rnd w.drawn % sv.length], hsv, hsne, List.getElem?_eq_getElem hlt, hfit,
      htz, ?_⟩
    have hlen : ([A, B, C, D].filter (fun k => fits w.floor k row column)).length ≠ 0 := by
      intro h0
      exact hne (List.length_eq_zero.1 h0)
    have hsl : sv.length ≠ 0 := by omega
    simp [chooseTile, getCandidateTiles_eq_sized, hlen, hsv, Intn, hsl, List.getElem?_eq_getElem hlt]

theorem assign_of_within_sized (row column : Int) (t : tile) (w : World R K)
    (h : 0 ≤ row ∧ row < (R : Int) ∧ 0 ≤ column ∧ column < (K : Int)) :
    assign row column t w = .ok { w with floor := put w.floor row column t } := by
  simp [assign, store, h]

theorem fits_iff_sized (fl : Floor R K) (t : tile) (row column : Int) :
    fits fl t row column = true ↔ ∀ p ∈ footprint t row column, isFree fl p.1 p.2 = true := by
  simp [fits, List.all_eq_true]

theorem fits_within_sized (fl : Floor R K) (t : tile) (row column : Int)
    (h : fits fl t row column = true) :
    ∀ p ∈ footprint t row column,
      0 ≤ p.1 ∧ p.1 < (R : Int) ∧ 0 ≤ p.2 ∧ p.2 < (K : Int) :=
  fun p hp => isFree_within_sized fl p.1 p.2 ((fits_iff_sized fl t row column).1 h p hp)

theorem fits_last_row_sized (fl : Floor R K) (t : tile) (row column : Int)
    (hfit : fits fl t row column = true) (ht : t ≠ Z) (hlast : (R : Int) ≤ row + 1) :
    t = A ∨ t = B := by
  have hin := fits_within_sized fl t row column hfit
  cases t with
  | Z => exact absurd rfl ht
  | A => exact Or.inl rfl
  | B => exact Or.inr rfl
  | C =>
    have := hin (row + 1, column) (by simp [footprint])
    simp only at this
    omega
  | D =>
    have := hin (row + 1, column) (by simp [footprint])
    simp only at this
    omega

theorem layTile_A_sized (row column : Int) (w : World R K)
    (h : 0 ≤ row ∧ row < (R : Int) ∧ 0 ≤ column ∧ column < (K : Int)) :
    layTile row column A w
      = .ok { floor := put w.floor row column A, tileCounts := bump w.tileCounts A,
              drawn := w.drawn } := by
  simp [layTile, layTileSwitch, assign_of_within_sized row column A w h]

theorem layTile_B_sized (row column : Int) (w : World R K)
    (h1 : 0 ≤ row ∧ row < (R : Int) ∧ 0 ≤ column ∧ column < (K : Int))
    (h2 : 0 ≤ row ∧ row < (R : Int) ∧ 0 ≤ column + 1 ∧ column + 1 < (K : Int)) :
    layTile row column B w
      = .ok { floor := put (put w.floor row column B) row (column + 1) B,
              tileCounts := bump w.tileCounts B, drawn := w.drawn } := by
  simp [layTile, layTileSwitch, Outcome.andThen, assign_of_within_sized row column B w h1,
    assign_of_within_sized row (column + 1) B _ h2]

theorem put_noVertical (fl : Floor R K) (row column : Int) (t : tile)
    (ht : t = A ∨ t = B) (h : ∀ r c, fl r c ≠ C ∧ fl r c ≠ D) :
    ∀ r c, put fl row column t r c ≠ C ∧ put fl row column t r c ≠ D := by
  intro r c
  unfold put
  split
  · rcases ht with ht | ht <;> subst ht <;> exact ⟨by decide, by decide⟩
  · exact h r c

/-- One iteration of the loop body in a row with no row below: the kind placed, if any, is
`A` or `B`, the iteration returns, and no `C` or `D` appears. -/
theorem scanBody_last_row_sized (rnd : Nat → Nat) (row column : Int) (w : World R K)
    (hlast : (R : Int) ≤ row + 1) (hinv : NoVertical w) :
    (∀ t w1, chooseTile rnd row column w = .place t w1 → t = A ∨ t = B) ∧
    ∃ w2, scanBody rnd row column w = .ok w2 ∧ NoVertical w2 := by
  obtain ⟨hfl, hC, hD⟩ := hinv
  rcases chooseTile_cases_sized rnd row column w with
    ⟨_, hc⟩ | ⟨_, sv, t, _, _, _, hfit, htz, hc⟩
  · refine ⟨?_, w, by simp [scanBody, hc], hfl, hC, hD⟩
    intro t w1 h
    rw [hc] at h
    exact Choice.noConfusion h
  · have hAB := fits_last_row_sized w.floor t row column hfit htz hlast
    have hin := fits_within_sized w.floor t row column hfit
    refine ⟨?_, ?_⟩
    · intro t2 w1 h
      rw [hc] at h
      injection h with h1 _
      rw [← h1]
      exact hAB
    · rcases hAB with ht | ht
      · subst ht
        have h1 := hin (row, column) (by simp [footprint])
        refine ⟨_, by simp only [scanBody, hc]; exact layTile_A_sized row column _ h1, ?_, ?_, ?_⟩
        · exact put_noVertical w.floor row column A (Or.inl rfl) hfl
        · show countOf (bump w.tileCounts A) C = 0
          rw [countOf_bump, if_neg (by decide), hC]
        · show countOf (bump w.tileCounts A) D = 0
          rw [countOf_bump, if_neg (by decide), hD]
      · subst ht
        have h1 := hin (row, column) (by simp [footprint])
        have h2 := hin (row, column + 1) (by simp [footprint])
        refine ⟨_, by simp only [scanBody, hc]; exact layTile_B_sized row column _ h1 h2,
          ?_, ?_, ?_⟩
        · exact put_noVertical _ row (column + 1) B (Or.inr rfl)
            (put_noVertical w.floor row column B (Or.inr rfl) hfl)
        · show countOf (bump w.tileCounts B) C = 0
          rw [countOf_bump, if_neg (by decide), hC]
        · show countOf (bump w.tileCounts B) D = 0
          rw [countOf_bump, if_neg (by decide), hD]

theorem scanColumns_last_row_sized (rnd : Nat → Nat) (row : Int) (hlast : (R : Int) ≤ row + 1)
    (cols : List Nat) (w : World R K) (hinv : NoVertical w) :
    ∃ w2, cols.foldl (fun (o : Outcome R K) (currentColumn : Nat) =>
        o.andThen (scanBody rnd row currentColumn)) (Outcome.ok w) = Outcome.ok w2 ∧
      NoVertical w2 := by
  induction cols generalizing w with
  | nil => exact ⟨w, rfl, hinv⟩
  | cons c cs ih =>
    obtain ⟨w1, h1, hinv1⟩ := (scanBody_last_row_sized rnd row c w hlast hinv).2
    obtain ⟨w2, h2, hinv2⟩ := ih w1 hinv1
    refine ⟨w2, ?_, hinv2⟩
    simp only [List.foldl_cons, Outcome.andThen, h1]
    exact h2

theorem makePattern_one_row_sized (rnd : Nat → Nat) (w : World 1 K) (hinv : NoVertical w) :
    ∃ wf, makePattern rnd w = .ok wf ∧ NoVertical wf := by
  have hrange : List.range 1 = [0] := rfl
  simp only [makePattern, hrange, List.foldl_cons, List.foldl_nil, scanRow]
  exact scanColumns_last_row_sized rnd ((0 : Nat) : Int) (by simp) (List.range K) w hinv

theorem noVertical_initial_sized : NoVertical (initialWorld R K) :=
  ⟨fun _ _ => ⟨by simp [initialWorld, emptyFloor], by simp [initialWorld, emptyFloor]⟩,
    rfl, rfl⟩

/-! ### For `R = ROWS` and `K = COLUMNS` the sized program is the program above -/

theorem andThen_eq (o : Outcome ROWS COLUMNS) (f : World ROWS COLUMNS → Outcome ROWS COLUMNS)
    (g : FloorTile.World → FloorTile.Outcome) (h : ∀ w, toOutcome (f w) = g (toWorld w)) :
    toOutcome (o.andThen f) = (toOutcome o).andThen g := by
  cases o with
  | ok w => exact h w
  | panic w => rfl

theorem assign_eq (row column : Int) (t : tile) (w : World ROWS COLUMNS) :
    toOutcome (assign row column t w) = FloorTile.assign row column t (toWorld w) := by
  by_cases h : 0 ≤ row ∧ row < (ROWS : Int) ∧ 0 ≤ column ∧ column < (COLUMNS : Int)
  · rw [assign_of_within_sized row column t w h,
      FloorTile.assign_of_within row column t (toWorld w) h]
    rfl
  · simp only [assign, store, FloorTile.assign, FloorTile.store, h, if_false]
    rfl

theorem layTileSwitch_eq (row column : Int) (t : tile) (w : World ROWS COLUMNS) :
    toOutcome (layTileSwitch row column t w)
      = FloorTile.layTileSwitch row column t (toWorld w) := by
  cases t with
  | Z => rfl
  | A => exact assign_eq row column A w
  | B =>
    simp only [layTileSwitch, FloorTile.layTileSwitch]
    rw [andThen_eq _ _ _ (assign_eq row (column + 1) B), assign_eq]
  | C =>
    simp only [layTileSwitch, FloorTile.layTileSwitch]
    rw [andThen_eq _ _ _ (assign_eq (row + 1) column C), assign_eq]
  | D =>
    simp only [layTileSwitch, FloorTile.layTileSwitch]
    rw [andThen_eq _ _ _ (assign_eq (row + 1) (column + 1) D),
      andThen_eq _ _ _ (assign_eq row (column + 1) D),
      andThen_eq _ _ _ (assign_eq (row + 1) column D), assign_eq]

theorem layTile_eq (row column : Int) (t : tile) (w : World ROWS COLUMNS) :
    toOutcome (layTile row column t w) = FloorTile.layTile row column t (toWorld w) := by
  have h := layTileSwitch_eq row column t w
  unfold layTile FloorTile.layTile
  rw [← h]
  cases layTileSwitch row column t w <;> rfl

theorem scanBody_eq (rnd : Nat → Nat) (row column : Int) (w : World ROWS COLUMNS) :
    toOutcome (scanBody rnd row column w) = FloorTile.scanBody rnd row column (toWorld w) := by
  have hcand : getCandidateTiles w.floor row column
      = FloorTile.getCandidateTiles (toWorld w).floor row column := rfl
  have hsurv : ∀ cands, survivors w.floor cands row column
      = FloorTile.survivors (toWorld w).floor cands row column := fun _ => rfl
  unfold scanBody FloorTile.scanBody chooseTile FloorTile.chooseTile
  rw [hcand]
  cases FloorTile.getCandidateTiles (toWorld w).floor row column with
  | none => rfl
  | some cands =>
    by_cases hlen : cands.length = 0
    · simp only [hlen, if_true]
      rfl
    · simp only [hlen, if_false, hsurv]
      cases FloorTile.survivors (toWorld w).floor cands row column with
      | none => rfl
      | some sv =>
        by_cases hs : sv.length = 0
        · simp only [Intn, FloorTile.Intn, hs, if_true]
          rfl
        · simp only [Intn, FloorTile.Intn, hs, if_false]
          have hd : (toWorld w).drawn = w.drawn := rfl
          rw [hd]
          cases sv[rnd w.drawn % sv.length]? with
          | none => rfl
          | some t => exact layTile_eq row column t _

theorem scanColumns_eq (rnd : Nat → Nat) (row : Nat) (cols : List Nat)
    (o : Outcome ROWS COLUMNS) :
    toOutcome (cols.foldl (fun (o : Outcome ROWS COLUMNS) (currentColumn : Nat) =>
        o.andThen (scanBody rnd row currentColumn)) o)
      = cols.foldl (fun (o : FloorTile.Outcome) (currentColumn : Nat) =>
        o.andThen (FloorTile.scanBody rnd row currentColumn)) (toOutcome o) := by
  induction cols generalizing o with
  | nil => rfl
  | cons c cs ih =>
    simp only [List.foldl_cons]
    rw [ih, andThen_eq _ _ _ (scanBody_eq rnd row c)]

theorem scanRows_eq (rnd : Nat → Nat) (rows : List Nat) (o : Outcome ROWS COLUMNS) :
    toOutcome (rows.foldl (fun (o : Outcome ROWS COLUMNS) (currentRow : Nat) =>
        scanRow rnd currentRow o) o)
      = rows.foldl (fun (o : FloorTile.Outcome) (currentRow : Nat) =>
        FloorTile.scanRow rnd currentRow o) (toOutcome o) := by
  induction rows generalizing o with
  | nil => rfl
  | cons r rs ih =>
    simp only [List.foldl_cons]
    rw [ih]
    congr 1
    exact scanColumns_eq rnd r (List.range COLUMNS) o

/-- For `R = ROWS` and `K = COLUMNS` the sized `makePattern` is `makePattern`. -/
theorem makePattern_eq (rnd : Nat → Nat) (w : World ROWS COLUMNS) :
    toOutcome (makePattern rnd w) = FloorTile.makePattern rnd (toWorld w) :=
  scanRows_eq rnd (List.range ROWS) (.ok w)

end Sized

/-- C12 (last row, one-row floor). For every floor state and column, the list of
`getCandidateTiles(ROWS-1, c)` contains neither `C` nor `D`: only `A` and `B` can be
legal where there is no row below, and a tile placed by a scan step in the last row is
`A` or `B`.  For the program with `ROWS = 1` (any number of columns), whose embedding
`Sized` coincides with the one of the source when `ROWS` and `COLUMNS` have the source
values: every tile placed is `A` or `B`, and after `makePattern` from the all-unlaid floor
no cell holds `C` or `D` and neither kind has been counted. -/
theorem last_row_only_A_B :
    (∀ (fl : Floor) (column : Int), ∃ cands,
      getCandidateTiles fl ((ROWS : Int) - 1) column = some cands ∧
      C ∉ cands ∧ D ∉ cands ∧ ∀ k ∈ cands, k = A ∨ k = B) ∧
    (∀ (rnd : Nat → Nat) (column : Int) (w w1 : World) (t : tile),
      chooseTile rnd ((ROWS : Int) - 1) column w = .place t w1 → t = A ∨ t = B) ∧
    (∀ (K : Nat) (rnd : Nat → Nat) (row column : Int) (w w1 : Sized.World 1 K) (t : tile),
      Sized.chooseTile rnd row column w = .place t w1 → t = A ∨ t = B) ∧
    (∀ (K : Nat) (rnd : Nat → Nat), ∃ wf,
      Sized.makePattern rnd (Sized.initialWorld 1 K) = .ok wf ∧
      (∀ r c, wf.floor r c ≠ C ∧ wf.floor r c ≠ D) ∧
      countOf wf.tileCounts C = 0 ∧ countOf wf.tileCounts D = 0) ∧
    (∀ (rnd : Nat → Nat) (w : Sized.World ROWS COLUMNS),
      Sized.toOutcome (Sized.makePattern rnd w) = makePattern rnd (Sized.toWorld w)) := by
  have hfixed : ∀ (fl : Floor) (column : Int) (k : tile),
      k ∈ [A, B, C, D].filter (fun k => fits fl k ((ROWS : Int) - 1) column) →
      k = A ∨ k = B := by
    intro fl column k hk
    have hin := fits_within fl k _ _ (List.mem_filter.1 hk).2
    have hkz := candidates_ne_Z fl _ _ k hk
    cases k with
    | Z => exact absurd rfl hkz
    | A => exact Or.inl rfl
    | B => exact Or.inr rfl
    | C =>
      have := hin ((ROWS : Int) - 1 + 1, column) (by simp [footprint])
      simp only at this
      omega
    | D =>
      have := hin ((ROWS : Int) - 1 + 1, column) (by simp [footprint])
      simp only at this
      omega
  refine ⟨?_, ?_, ?_, ?_, Sized.makePattern_eq⟩
  · intro fl column
    refine ⟨_, getCandidateTiles_eq fl _ column, ?_, ?_, hfixed fl column⟩
    · intro h
      rcases hfixed fl column C h with h2 | h2 <;> exact tile.noConfusion h2
    · intro h
      rcases hfixed fl column D h with h2 | h2 <;> exact tile.noConfusion h2
  · intro rnd column w w1 t hc
    obtain ⟨_, htz, hfit, _, _⟩ := chooseTile_place rnd _ column w w1 t hc
    exact hfixed w.floor column t (List.mem_filter.2 ⟨by cases t <;> simp at htz ⊢, hfit⟩)
  · intro K rnd row column w w1 t hc
    rcases Sized.chooseTile_cases_sized rnd row column w with
      ⟨_, hs⟩ | ⟨_, sv, t2, _, _, _, hfit, htz, hp⟩
    · rw [hs] at hc
      exact Sized.Choice.noConfusion hc
    · rw [hp] at hc
      injection hc with ht _
      subst ht
      have horigin := Sized.fits_within_sized w.floor t2 row column hfit (row, column)
        (origin_mem_footprint t2 row column htz)
      simp only at horigin
      exact Sized.fits_last_row_sized w.floor t2 row column hfit htz (by omega)
  · intro K rnd
    obtain ⟨wf, hwf, hfl, hC, hD⟩ :=
      Sized.makePattern_one_row_sized rnd (Sized.initialWorld 1 K)
        Sized.noVertical_initial_sized
    exact ⟨wf, hwf, hfl, hC, hD⟩

/-- Witness for `last_row_only_A_B`: the first scan step on the all-unlaid `1 × 5` floor,
with draw `1`, places `B`; a scan step at column `0` of the last row of the all-unlaid
`ROWS × COLUMNS` floor, with draw `0`, places `A`. -/
theorem last_row_only_A_B_witness :
    ((B : tile) = A ∨ (B : tile) = B) ∧ ((A : tile) = A ∨ (A : tile) = B) :=
  ⟨last_row_only_A_B.2.2.1 5 (fun _ => 1) 0 0 (Sized.initialWorld 1 5)
      { Sized.initialWorld 1 5 with drawn := 1 } B rfl,
   last_row_only_A_B.2.1 (fun _ => 0) 0 initialWorld { initialWorld with drawn := 1 } A rfl⟩

end FloorTile
